import Mathlib

/-!
Verification development for the dev-backup engine (crates `dev-backup-core`,
`dev-backup-storage`, `dev-backup-cli`).

The Rust sources are shallowly embedded:

* `ManifestRecord` mirrors `dev_backup_core::manifest::ManifestRecord`
  (`u64` sizes become `Nat`; all string fields stay `String`).
* The chain resolver (`plan_restore` / `plan_chain_from_records` in
  `dev-backup-cli/src/main.rs`) is embedded with an explicit fuel parameter:
  the Rust `loop` has no built-in termination, so `none` models
  "the loop is still running after `fuel` iterations".
* Filesystem checks (`Path::exists`) become boolean predicates passed in as
  arguments, as does the remote store in the sync reconciler.
* `OffsetDateTime` values are modelled as epoch seconds (`Int`);
  the `time` crate's RFC3339 parser is modelled for the canonical
  `YYYY-MM-DDTHH:MM:SSZ` form, which is the only form this repository writes;
  all other strings are modelled as unparseable.
-/

namespace BackupBuild

/-- Embedding of `ManifestRecord` from `dev-backup-core/src/manifest.rs`:
`{ ts, label, record_type ("type"), parent, bytes, sha256, local_path, object_key }`.
`bytes : u64` is modelled as `Nat` (wellformedness `< 2^64` is assumed where
it matters). -/
structure ManifestRecord where
  ts : String
  label : String
  record_type : String
  parent : String
  bytes : Nat
  sha256 : String
  local_path : String
  object_key : String
deriving DecidableEq, Repr

/-- Errors raised by the CLI's label / chain resolution code
(`anyhow!` messages in `dev-backup-cli/src/main.rs`); each constructor keeps
the datum interpolated into the Rust error message. -/
inductive PlanErr where
  | emptyManifest
  | invalidLabel
  | noLabelFound
  | invalidTimestamp (ts : String)
  | labelNotFound (label : String)
  | missingParent (label : String)
deriving DecidableEq, Repr

/-- Decidable equality for `Except`, so that concrete runs of the embedded
functions can be checked by `decide`. -/
instance exceptDecEq {e a : Type} [DecidableEq e] [DecidableEq a] :
    DecidableEq (Except e a) := fun x y =>
  match x, y with
  | .ok v, .ok w =>
    if h : v = w then isTrue (by rw [h]) else isFalse (by intro hc; cases hc; exact h rfl)
  | .error v, .error w =>
    if h : v = w then isTrue (by rw [h]) else isFalse (by intro hc; cases hc; exact h rfl)
  | .ok _, .error _ => isFalse (by intro hc; cases hc)
  | .error _, .ok _ => isFalse (by intro hc; cases hc)

/-- The `latest_by_label` map of `plan_restore` / `plan_chain_from_records`:
records are inserted in iteration order into a `HashMap`, so a lookup returns
the most recently inserted record carrying that label. -/
def latestByLabel (records : List ManifestRecord) (l : String) : Option ManifestRecord :=
  (records.filter (fun r => r.label == l)).getLast?

/-- The `loop` body of `plan_restore` (main.rs:291-315), parameterised by the
label lookup and by the `Path::exists` check on
`{ls_root}/restore/snapshots/dev@{parent}` (modelled as a predicate on the
parent label). `none` means the loop has not finished within `fuel` steps. -/
def planRestoreLoop (lookup : String → Option ManifestRecord) (localExists : String → Bool) :
    Nat → String → List ManifestRecord → Option (Except PlanErr (List ManifestRecord))
  | 0, _, _ => none
  | fuel + 1, current, chain =>
    match lookup current with
    | none => some (.error (.labelNotFound current))
    | some record =>
      if record.record_type == "anchor" then some (.ok (chain ++ [record]))
      else if record.parent == "" then some (.error (.missingParent current))
      else if localExists record.parent then some (.ok (chain ++ [record]))
      else planRestoreLoop lookup localExists fuel record.parent (chain ++ [record])

/-- The `loop` body of `plan_chain_from_records` (main.rs:501-515): identical
to the restore loop but with no local-snapshot early stop. -/
def planPullLoop (lookup : String → Option ManifestRecord) :
    Nat → String → List ManifestRecord → Option (Except PlanErr (List ManifestRecord))
  | 0, _, _ => none
  | fuel + 1, current, chain =>
    match lookup current with
    | none => some (.error (.labelNotFound current))
    | some record =>
      if record.record_type == "anchor" then some (.ok (chain ++ [record]))
      else if record.parent == "" then some (.error (.missingParent current))
      else planPullLoop lookup fuel record.parent (chain ++ [record])

/-- Digit value of an ASCII digit character. -/
def toDigit (c : Char) : Nat := c.toNat - 48

/-- Days from 0000-03-01 to the civil date `y-m-d` (proleptic Gregorian),
the standard days-from-civil computation used to turn a civil date into an
epoch offset. Valid for `y ≥ 1`. -/
def civilDays (y m d : Nat) : Nat :=
  let yAdj := if m ≤ 2 then y - 1 else y
  let mAdj := if m ≤ 2 then m + 9 else m - 3
  365 * yAdj + yAdj / 4 - yAdj / 100 + yAdj / 400 + (153 * mAdj + 2) / 5 + (d - 1)

/-- Modelled from the dependency: `OffsetDateTime::parse(_, &Rfc3339)` of the
`time` crate, restricted to the canonical UTC form `YYYY-MM-DDTHH:MM:SSZ`
(the only form this repository ever writes into a manifest); the result is
the epoch-second timestamp. Strings in any other form are modelled as
unparseable. -/
def parseRfc3339 (s : String) : Option Int :=
  match s.data with
  | [y1, y2, y3, y4, c1, mo1, mo2, c2, d1, d2, ct, h1, h2, c3, mi1, mi2, c4, s1, s2, cz] =>
    if (y1.isDigit = true ∧ y2.isDigit = true ∧ y3.isDigit = true ∧ y4.isDigit = true ∧
        mo1.isDigit = true ∧ mo2.isDigit = true ∧ d1.isDigit = true ∧ d2.isDigit = true ∧
        h1.isDigit = true ∧ h2.isDigit = true ∧ mi1.isDigit = true ∧ mi2.isDigit = true ∧
        s1.isDigit = true ∧ s2.isDigit = true ∧
        c1 = '-' ∧ c2 = '-' ∧ ct = 'T' ∧ c3 = ':' ∧ c4 = ':' ∧ cz = 'Z') then
      let y := 1000 * toDigit y1 + 100 * toDigit y2 + 10 * toDigit y3 + toDigit y4
      let mo := 10 * toDigit mo1 + toDigit mo2
      let d := 10 * toDigit d1 + toDigit d2
      let h := 10 * toDigit h1 + toDigit h2
      let mi := 10 * toDigit mi1 + toDigit mi2
      let sec := 10 * toDigit s1 + toDigit s2
      if (1 ≤ y ∧ 1 ≤ mo ∧ mo ≤ 12 ∧ 1 ≤ d ∧ d ≤ 31 ∧ h ≤ 23 ∧ mi ≤ 59 ∧ sec ≤ 59) then
        some (((civilDays y mo d : Int) - 719468) * 86400 + 3600 * h + 60 * mi + sec)
      else none
    else none
  | _ => none

/-- Loop state of `resolve_latest_label` (main.rs:521-533): `best` holds the
parsed timestamp and label of the best record so far; a record replaces it
only when its timestamp is strictly greater. -/
def resolveLatestAux : List ManifestRecord → Option (Int × String) → Except PlanErr (Option String)
  | [], best => .ok (best.map (fun b => b.2))
  | r :: rest, best =>
    match parseRfc3339 r.ts with
    | none => .error (.invalidTimestamp r.ts)
    | some ts =>
      match best with
      | none => resolveLatestAux rest (some (ts, r.label))
      | some (bts, blab) =>
        if bts < ts then resolveLatestAux rest (some (ts, r.label))
        else resolveLatestAux rest (some (bts, blab))

/-- Embedding of `resolve_latest_label` (main.rs:521-533). -/
def resolve_latest_label (records : List ManifestRecord) : Except PlanErr (Option String) :=
  resolveLatestAux records none

/-- Parsed timestamp of a record, defaulting to 0; used only under the
hypothesis that every timestamp parses. -/
def parsedTs (r : ManifestRecord) : Int := (parseRfc3339 r.ts).getD 0

/-- Spec-words rendering of claim C5's selection rule, for comparison with
`resolve_latest_label`: maximum parsed timestamp with ties broken by
last-seen-wins in iteration order (`≤` where the code uses `<`). -/
def specClaimResolveLatestAux :
    List ManifestRecord → Option (Int × String) → Except PlanErr (Option String)
  | [], best => .ok (best.map (fun b => b.2))
  | r :: rest, best =>
    match parseRfc3339 r.ts with
    | none => .error (.invalidTimestamp r.ts)
    | some ts =>
      match best with
      | none => specClaimResolveLatestAux rest (some (ts, r.label))
      | some (bts, blab) =>
        if bts ≤ ts then specClaimResolveLatestAux rest (some (ts, r.label))
        else specClaimResolveLatestAux rest (some (bts, blab))

/-- See `specClaimResolveLatestAux`. -/
def specClaimResolveLatest (records : List ManifestRecord) : Except PlanErr (Option String) :=
  specClaimResolveLatestAux records none

/-- Embedding of `is_valid_label` (main.rs:675-692) over a character list:
split on the dash, demand exactly two parts of lengths 4 and 2, all ASCII
digits. -/
def splitOnChar (sep : Char) : List Char → List (List Char)
  | [] => [[]]
  | c :: rest =>
    let parts := splitOnChar sep rest
    if c = sep then [] :: parts
    else
      match parts with
      | [] => [[c]]
      | p :: ps => (c :: p) :: ps

/-- Embedding of `is_valid_label` (main.rs:675-692); the Rust function walks
the `split('-')` iterator, which is `splitOnChar '-'` here. -/
def is_valid_label (label : List Char) : Bool :=
  match splitOnChar '-' label with
  | [year, month] =>
    year.length == 4 && month.length == 2 &&
      year.all Char.isDigit && month.all Char.isDigit
  | _ => false

/-- Embedding of `resolve_label_input` (main.rs:535-542). -/
def resolve_label_input (records : List ManifestRecord) (label : String) : Except PlanErr String :=
  if label == "latest" then
    match resolve_latest_label records with
    | .error e => .error e
    | .ok none => .error .noLabelFound
    | .ok (some l) => .ok l
  else if is_valid_label label.data then .ok label
  else .error .invalidLabel

/-- Embedding of `plan_restore` (main.rs:275-319): empty-manifest check, label
resolution, backward walk, final reversal. The manifest read is replaced by
the record list argument, and the snapshot-existence check by `localExists`. -/
def plan_restore (records : List ManifestRecord) (label : String) (localExists : String → Bool)
    (fuel : Nat) : Option (Except PlanErr (List ManifestRecord)) :=
  if records.isEmpty then some (.error .emptyManifest)
  else
    match resolve_label_input records label with
    | .error e => some (.error e)
    | .ok resolved =>
      (planRestoreLoop (latestByLabel records) localExists fuel resolved []).map
        (fun res => res.map List.reverse)

/-- Embedding of `plan_chain_from_records` (main.rs:493-519): same walk with
no early stop and no label validation (callers resolve "latest" themselves). -/
def plan_chain_from_records (records : List ManifestRecord) (label : String)
    (fuel : Nat) : Option (Except PlanErr (List ManifestRecord)) :=
  (planPullLoop (latestByLabel records) fuel label []).map (fun res => res.map List.reverse)

/-! ### Policy engine (`dev-backup-core/src/policy.rs`) -/

/-- Embedding of `SnapshotDecision`. -/
inductive SnapshotDecision where
  | anchor
  | incremental
deriving DecidableEq, Repr

/-- Errors of `decide_snapshot_type`: the `context(...)` failures on a missing
anchor and on an unparseable anchor timestamp. -/
inductive PolicyErr where
  | noAnchor
  | badAnchorTimestamp
deriving DecidableEq, Repr

/-- Embedding of `PolicyInput`; `now : OffsetDateTime` is modelled as epoch
seconds, matching the `whole_seconds` granularity the policy uses. -/
structure PolicyInput where
  now : Int
  max_months_between_anchor : Int
deriving DecidableEq, Repr

/-- Value of `u64::MAX`, the ceiling of `u64::saturating_add`. -/
def U64MAX : Nat := 18446744073709551615

/-- Embedding of `u64::saturating_add`. -/
def satAdd (a b : Nat) : Nat := min (a + b) U64MAX

/-- The `records.iter().rev().find(|r| r.record_type == "anchor")` step of
`decide_snapshot_type` (policy.rs:31-35). -/
def findLastAnchor (records : List ManifestRecord) : Option ManifestRecord :=
  records.reverse.find? (fun r => r.record_type == "anchor")

/-- The `sum_incr` / `seen_anchor` fold of `decide_snapshot_type`
(policy.rs:43-53): every record equal to `lastAnchor` is skipped and flips
`seen_anchor`; once the flag is set, other records contribute their bytes via
a saturating add. -/
def sumIncrAfterAnchor (records : List ManifestRecord) (lastAnchor : ManifestRecord) : Nat :=
  (records.foldl
    (fun st r =>
      if r = lastAnchor then (true, st.2)
      else if st.1 then (true, satAdd st.2 r.bytes)
      else st)
    ((false : Bool), (0 : Nat))).2

/-- Embedding of `decide_snapshot_type` (policy.rs:26-66). Rust's `i64`
division `diff_seconds / 2_592_000` truncates toward zero, hence `Int.tdiv`. -/
def decide_snapshot_type (records : List ManifestRecord) (input : PolicyInput) :
    Except PolicyErr SnapshotDecision :=
  if records.isEmpty then .ok .anchor
  else
    match findLastAnchor records with
    | none => .error .noAnchor
    | some lastAnchor =>
      match parseRfc3339 lastAnchor.ts with
      | none => .error .badAnchorTimestamp
      | some anchorTs =>
        let diffMonths := (input.now - anchorTs).tdiv 2592000
        let sumIncr := sumIncrAfterAnchor records lastAnchor
        let anchorBytes := max lastAnchor.bytes 1
        if input.max_months_between_anchor ≤ diffMonths then .ok .anchor
        else if anchorBytes ≤ sumIncr then .ok .anchor
        else .ok .incremental

/-- Spec-words rendering of the policy rule of claim C2, for comparison with
`decide_snapshot_type`: the cumulative size is the plain sum over the records
strictly after the last anchor in store order, and elapsed months are
`floor((now - anchor.ts) / 30 days)` (`Int.fdiv`). `lastAnchorSplit` returns
the last record of kind anchor together with the records strictly after it. -/
def lastAnchorSplit : List ManifestRecord → Option (ManifestRecord × List ManifestRecord)
  | [] => none
  | r :: rest =>
    match lastAnchorSplit rest with
    | some (a, after) => some (a, after)
    | none => if r.record_type == "anchor" then some (r, rest) else none

/-- Spec-words policy decision for claim C2 (see `lastAnchorSplit`). -/
def specClaimDecideC2 (records : List ManifestRecord) (input : PolicyInput) :
    Except PolicyErr SnapshotDecision :=
  if records.isEmpty then .ok .anchor
  else
    match lastAnchorSplit records with
    | none => .error .noAnchor
    | some (lastAnchor, after) =>
      match parseRfc3339 lastAnchor.ts with
      | none => .error .badAnchorTimestamp
      | some anchorTs =>
        let elapsedMonths := (input.now - anchorTs).fdiv 2592000
        let cumulative := (after.map (fun r => r.bytes)).sum
        if input.max_months_between_anchor ≤ elapsedMonths ∨ max lastAnchor.bytes 1 ≤ cumulative
        then .ok .anchor
        else .ok .incremental

/-! ### Artifact naming (`dev-backup-storage/src/artifact.rs`)

Rust `&str` values are embedded as `List Char` in this module so that the
prefix/suffix/split manipulations of `parse_artifact_filename` can be reasoned
about directly. -/

/-- Embedding of `ArtifactType`. -/
inductive ArtifactType where
  | anchor
  | incremental
deriving DecidableEq, Repr

/-- Embedding of `ArtifactInfo`. -/
structure ArtifactInfo where
  label : List Char
  artifact_type : ArtifactType
  parent : Option (List Char)
  filename : List Char
deriving DecidableEq, Repr

/-- The literal `"dev@"`. -/
def devTag : List Char := ['d', 'e', 'v', '@']

/-- The literal `".full.send.zst.age"`. -/
def fullSuffix : List Char :=
  ['.', 'f', 'u', 'l', 'l', '.', 's', 'e', 'n', 'd', '.', 'z', 's', 't', '.', 'a', 'g', 'e']

/-- The literal `".send.zst.age"`. -/
def sendSuffix : List Char :=
  ['.', 's', 'e', 'n', 'd', '.', 'z', 's', 't', '.', 'a', 'g', 'e']

/-- The literal `".incr.from_"`. -/
def incrSep : List Char := ['.', 'i', 'n', 'c', 'r', '.', 'f', 'r', 'o', 'm', '_']

/-- Embedding of `str::strip_prefix`. -/
def stripPrefixL (pre s : List Char) : Option (List Char) :=
  if pre.isPrefixOf s then some (s.drop pre.length) else none

/-- Embedding of `str::strip_suffix`. -/
def stripSuffixL (suf s : List Char) : Option (List Char) :=
  if suf.isSuffixOf s then some (s.take (s.length - suf.length)) else none

/-- First occurrence of the (non-empty) needle `sep` in `s`: the text before
it and the text after it, scanning left to right — the search step of Rust's
`str::split` with a multi-character pattern. -/
def findSeq (sep : List Char) : List Char → Option (List Char × List Char)
  | [] => if sep.isEmpty then some ([], []) else none
  | c :: rest =>
    if sep.isPrefixOf (c :: rest) then some ([], (c :: rest).drop sep.length)
    else (findSeq sep rest).map (fun pr => (c :: pr.1, pr.2))

/-- Iterated split at each occurrence of `sep`, with explicit fuel so the
definition is structural (each found occurrence strictly shrinks the text, so
`length + 1` fuel in `splitOnSeq` is always enough). -/
def splitOnSeqAux (sep : List Char) : Nat → List Char → List (List Char)
  | 0, s => [s]
  | fuel + 1, s =>
    match findSeq sep s with
    | none => [s]
    | some (pre, post) => pre :: splitOnSeqAux sep fuel post

/-- Embedding of Rust's `str::split` with a multi-character (non-empty)
pattern, as used by `parse_artifact_filename` on `".incr.from_"`. -/
def splitOnSeq (sep s : List Char) : List (List Char) :=
  splitOnSeqAux sep (s.length + 1) s

/-- Embedding of `parse_artifact_filename` (artifact.rs:20-45): first try the
anchor grammar `dev@<label>.full.send.zst.age`; otherwise strip `dev@` and
`.send.zst.age` and demand exactly two parts around `".incr.from_"`. -/
def parse_artifact_filename (filename : List Char) : Option ArtifactInfo :=
  match (stripPrefixL devTag filename).bind (stripSuffixL fullSuffix) with
  | some label => some ⟨label, .anchor, none, filename⟩
  | none =>
    match stripPrefixL devTag filename with
    | none => none
    | some t1 =>
      match stripSuffixL sendSuffix t1 with
      | none => none
      | some t2 =>
        match splitOnSeq incrSep t2 with
        | [label, parent] => some ⟨label, .incremental, some parent, filename⟩
        | _ => none

/-- Embedding of the `output_name` format strings of `build_artifact`
(main.rs:199-203): `dev@{label}.incr.from_{parent}.send.zst.age` with a
parent, `dev@{label}.full.send.zst.age` without. -/
def build_artifact_name (label : List Char) (parent : Option (List Char)) : List Char :=
  match parent with
  | some p => devTag ++ label ++ incrSep ++ p ++ sendSuffix
  | none => devTag ++ label ++ fullSuffix

/-! ### Sync reconciler (`sync_push` and `build_object_key`, main.rs:388-437,
554-562) -/

/-- Components of a Unix path string: split at `/`, dropping the empty
components produced by leading, trailing or repeated separators — the
normalisation `Path::components` applies when `Path::strip_prefix` compares
paths. (`.` components are never produced by this program and are not
modelled.) -/
def pathParts (p : String) : List (List Char) :=
  (splitOnChar '/' p.data).filter (fun cs => cs ≠ [])

/-- Whether the path string is absolute. -/
def isAbsPath (p : String) : Bool :=
  match p.data with
  | c :: _ => c == '/'
  | [] => false

/-- Embedding of `str::trim_start_matches('/')`. -/
def trimLeadingSlashes (s : String) : String :=
  String.mk (s.data.dropWhile (fun c => c = '/'))

/-- Joining character-list pieces with a single separator character between
them (inverse of `splitOnChar`). -/
def joinWithChar (sep : Char) : List (List Char) → List Char
  | [] => []
  | [p] => p
  | p :: q :: qs => p ++ sep :: joinWithChar sep (q :: qs)

/-- Embedding of `build_object_key` (main.rs:554-562):
`local_path.strip_prefix(root)` succeeds when both paths have the same
absoluteness and root's components lead local_path's; the remainder is joined
back with single separators. On failure the full path is kept. Either way any
leading `/` is trimmed. -/
def build_object_key (ls_root : String) (local_path : String) : String :=
  if isAbsPath ls_root == isAbsPath local_path
      ∧ (pathParts ls_root).isPrefixOf (pathParts local_path) then
    trimLeadingSlashes
      (String.mk (joinWithChar '/' ((pathParts local_path).drop (pathParts ls_root).length)))
  else
    trimLeadingSlashes local_path

/-- Errors of the `sync_push` upload loop (main.rs:410-415). -/
inductive PushErr where
  | missingLocalPath (label : String)
  | artifactMissing (path : String)
deriving DecidableEq, Repr

/-- Observable outcome of one `sync_push` run: the artifact uploads performed
(object key and local path, in order), the manifest records after the run, and
whether `store.write_records` rewrote the manifest (the `changed` flag). -/
structure PushOutcome where
  uploads : List (String × String)
  records : List ManifestRecord
  manifestRewritten : Bool
deriving DecidableEq, Repr

/-- The `for record in &mut records` loop of `sync_push` (main.rs:405-423):
records with a non-empty `object_key` are skipped; otherwise the local path is
checked, the object uploaded, and the key written back. `fileExists` models
`Path::exists`; uploads themselves are modelled as always succeeding (the
transport is an external collaborator). -/
def syncPushGo (root : String) (fileExists : String → Bool) :
    List ManifestRecord → Except PushErr (List (String × String) × List ManifestRecord × Bool)
  | [] => .ok ([], [], false)
  | r :: rest =>
    if r.object_key ≠ "" then
      (syncPushGo root fileExists rest).map (fun out => (out.1, r :: out.2.1, out.2.2))
    else if r.local_path = "" then .error (.missingLocalPath r.label)
    else if fileExists r.local_path = false then .error (.artifactMissing r.local_path)
    else
      (syncPushGo root fileExists rest).map
        (fun out =>
          ((build_object_key root r.local_path, r.local_path) :: out.1,
           { r with object_key := build_object_key root r.local_path } :: out.2.1,
           true))

/-- Embedding of `sync_push` (main.rs:388-437) restricted to its observable
artifact-upload behaviour; the unconditional final manifest upload under the
fixed key `manifests/snapshots_v2.tsv` is not part of the outcome. -/
def sync_push (root : String) (fileExists : String → Bool) (records : List ManifestRecord) :
    Except PushErr PushOutcome :=
  (syncPushGo root fileExists records).map (fun out => ⟨out.1, out.2.1, out.2.2⟩)

/-! ### Pipeline orchestrator (`run_send_pipeline` / `run_receive_pipeline`,
main.rs:961-1069) -/

/-- Stages of the export pipeline. -/
inductive SendStage where
  | btrfsSend
  | zstd
  | age
deriving DecidableEq, Repr

/-- Stages of the import pipeline. -/
inductive RecvStage where
  | age
  | zstd
  | btrfsReceive
deriving DecidableEq, Repr

/-- Exit-status aggregation of `run_send_pipeline` (main.rs:1008-1016): after
waiting on all three children, the statuses are checked in the order
send, zstd, age, and the first non-zero one is reported by name. Exit statuses
are modelled as `Nat` with `status.success() ↔ status = 0`. -/
def run_send_pipeline_report (send zstd age : Nat) : Except SendStage Unit :=
  if send ≠ 0 then .error .btrfsSend
  else if zstd ≠ 0 then .error .zstd
  else if age ≠ 0 then .error .age
  else .ok ()

/-- Exit-status aggregation of `run_receive_pipeline` (main.rs:1058-1066):
statuses checked in the order age, zstd, receive. -/
def run_receive_pipeline_report (age zstd recv : Nat) : Except RecvStage Unit :=
  if age ≠ 0 then .error .age
  else if zstd ≠ 0 then .error .zstd
  else if recv ≠ 0 then .error .btrfsReceive
  else .ok ()

/-- Process-lifecycle events a pipeline function performs, in program order.
A `spawn` records which earlier stage's stdout pipe feeds the new child's
stdin (`none` when stdin is not a pipe from a sibling stage). -/
inductive PipeEvent where
  | spawn (stage : String) (stdinFrom : Option String)
  | wait (stage : String)
deriving DecidableEq, Repr

/-- The straight-line event trace of `run_send_pipeline` (main.rs:961-1006):
spawn btrfs send (stdout piped), spawn zstd on that pipe, spawn age on zstd's
pipe, then wait on age, zstd, btrfs send. -/
def send_pipeline_events : List PipeEvent :=
  [.spawn "btrfs send" none,
   .spawn "zstd" (some "btrfs send"),
   .spawn "age" (some "zstd"),
   .wait "age",
   .wait "zstd",
   .wait "btrfs send"]

/-- The straight-line event trace of `run_receive_pipeline`
(main.rs:1021-1056): spawn age (reading the input file), spawn zstd on age's
stdout pipe, spawn btrfs receive on zstd's pipe, then wait on receive, zstd,
age. -/
def receive_pipeline_events : List PipeEvent :=
  [.spawn "age" none,
   .spawn "zstd" (some "age"),
   .spawn "btrfs receive" (some "zstd"),
   .wait "btrfs receive",
   .wait "zstd",
   .wait "age"]

/-- Discriminator for wait events. -/
def PipeEvent.isWait : PipeEvent → Bool
  | .wait _ => true
  | .spawn _ _ => false

/-- Discriminator for spawn events. -/
def PipeEvent.isSpawn : PipeEvent → Bool
  | .wait _ => false
  | .spawn _ _ => true

/-- Every spawn in the trace happens strictly before every wait. -/
def spawnsBeforeWaits (evs : List PipeEvent) : Prop :=
  ∀ i j : Nat, ∀ ei ∈ evs.get? i, ∀ ej ∈ evs.get? j,
    ei.isWait = true → ej.isSpawn = true → j < i

/-! ### Termination of the chain walk (claim C10) -/

/-- Labels occurring in the manifest, without duplicates. -/
def labelsOf (records : List ManifestRecord) : List String :=
  (records.map (fun r => r.label)).dedup

/-- One backward step through the label-to-most-recent-record map: the parent
label recorded for `l`, if `l` is present at all. -/
def parentStepMap (records : List ManifestRecord) (l : String) : Option String :=
  (latestByLabel records l).map (fun r => r.parent)

/-- Iterated backward steps through parent pointers. -/
def iterParent (records : List ManifestRecord) : Nat → String → Option String
  | 0, l => some l
  | k + 1, l =>
    match parentStepMap records l with
    | none => none
    | some p => iterParent records k p

/-- Acyclicity of the parent relation of claim C10: no manifest label returns
to itself by following parent pointers. A cycle, if any, lies inside the
finite label set, so it suffices to rule out return trips of length at most
`(labelsOf records).length`; this keeps the predicate decidable. -/
def AcyclicParents (records : List ManifestRecord) : Prop :=
  ∀ l ∈ labelsOf records, ∀ k ∈ List.range ((labelsOf records).length + 1),
    k ≠ 0 → iterParent records k l ≠ some l

instance (records : List ManifestRecord) : Decidable (AcyclicParents records) := by
  unfold AcyclicParents
  infer_instance

/-! ### Concrete fixtures used by witnesses and counterexamples -/

/-- Anchor row of the manifest in `tests/restore_plan.rs`. -/
def c1Anchor : ManifestRecord :=
  ⟨"2024-01-01T00:00:00Z", "2024-01", "anchor", "", 1, "deadbeef",
   "/ls/artifacts/anchors/dev@2024-01.full.send.zst.age", ""⟩

/-- Incremental row of the manifest in `tests/restore_plan.rs`. -/
def c1Incr : ManifestRecord :=
  ⟨"2024-02-01T00:00:00Z", "2024-02", "incremental", "2024-01", 2, "beadfeed",
   "/ls/artifacts/incr/dev@2024-02.incr.from_2024-01.send.zst.age", ""⟩

/-- A malformed manifest row: incremental type with an empty parent field. -/
def c6Bad : ManifestRecord :=
  ⟨"2024-03-01T00:00:00Z", "2024-03", "incremental", "", 3, "ffff",
   "/ls/artifacts/incr/bad", ""⟩

/-- Anchor of 100 bytes taken at 2024-01-01T00:00:00Z (epoch 1704067200). -/
def c2Anchor : ManifestRecord :=
  ⟨"2024-01-01T00:00:00Z", "2024-01", "anchor", "", 100, "", "", ""⟩

/-- Incremental of 50 bytes. -/
def c2Incr50 : ManifestRecord :=
  ⟨"2024-01-15T00:00:00Z", "2024-02", "incremental", "2024-01", 50, "", "", ""⟩

/-- Second incremental of 50 bytes, bringing the cumulative total to 100. -/
def c2Incr50b : ManifestRecord :=
  ⟨"2024-01-20T00:00:00Z", "2024-03", "incremental", "2024-02", 50, "", "", ""⟩

/-- Incremental of 100 bytes, used between two duplicates of the anchor row. -/
def c2Incr100 : ManifestRecord :=
  ⟨"2024-01-15T00:00:00Z", "2024-02", "incremental", "2024-01", 100, "", "", ""⟩

/-- Policy input: now = anchor time + 40 days, default 12-month threshold. -/
def c2Input : PolicyInput := ⟨1704067200 + 40 * 86400, 12⟩

/-- Two records with equal timestamps and distinct labels (timestamp tie). -/
def c5First : ManifestRecord :=
  ⟨"2024-03-01T00:00:00Z", "2024-01", "anchor", "", 1, "", "", ""⟩

/-- See `c5First`: same timestamp, later position in the manifest. -/
def c5Second : ManifestRecord :=
  ⟨"2024-03-01T00:00:00Z", "2024-02", "incremental", "2024-01", 1, "", "", ""⟩

/-- A record already synced to the remote store. -/
def c7Synced : ManifestRecord :=
  ⟨"2024-01-01T00:00:00Z", "2024-01", "anchor", "", 1, "",
   "/ls/artifacts/anchors/a", "artifacts/anchors/a"⟩

/-- A record not yet synced (empty object key). -/
def c7New : ManifestRecord :=
  ⟨"2024-02-01T00:00:00Z", "2024-02", "incremental", "2024-01", 2, "",
   "/ls/artifacts/incr/b", ""⟩

/-- Degenerate unsynced record whose local path equals the storage root, so
the derived object key is empty. -/
def c7Deg : ManifestRecord :=
  ⟨"2024-01-01T00:00:00Z", "2024-01", "anchor", "", 1, "", "/ls", ""⟩

/-- Cyclic manifest: two incrementals naming each other as parents. -/
def c10CycA : ManifestRecord :=
  ⟨"2024-01-01T00:00:00Z", "2024-01", "incremental", "2024-02", 1, "", "", ""⟩

/-- See `c10CycA`. -/
def c10CycB : ManifestRecord :=
  ⟨"2024-02-01T00:00:00Z", "2024-02", "incremental", "2024-01", 1, "", "", ""⟩

/-! ## Helper lemmas -/

theorem mem_dropLast_or_getLast? {α : Type} (w : List α) (r : α) (hr : r ∈ w) :
    r ∈ w.dropLast ∨ w.getLast? = some r := by
  induction w with
  | nil => cases hr
  | cons a t ih =>
    cases t with
    | nil =>
      rw [List.mem_singleton] at hr
      right
      rw [hr]
      rfl
    | cons b u =>
      rw [List.mem_cons] at hr
      rcases hr with rfl | h
      · left
        rw [List.dropLast_cons₂]
        exact List.mem_cons_self r _
      · rcases ih h with h' | h'
        · left
          rw [List.dropLast_cons₂]
          exact List.mem_cons_of_mem a h'
        · right
          rwa [List.getLast?_cons_cons]

theorem latestByLabel_label {records : List ManifestRecord} {l : String}
    {r : ManifestRecord} (h : latestByLabel records l = some r) : r.label = l := by
  unfold latestByLabel at h
  have hmem := List.mem_of_mem_getLast? h
  have := (List.mem_filter.mp hmem).2
  simpa using this

theorem latestByLabel_mem {records : List ManifestRecord} {l : String}
    {r : ManifestRecord} (h : latestByLabel records l = some r) : r ∈ records := by
  unfold latestByLabel at h
  exact (List.mem_filter.mp (List.mem_of_mem_getLast? h)).1

theorem latestByLabel_mem_labelsOf {records : List ManifestRecord} {l : String}
    {r : ManifestRecord} (h : latestByLabel records l = some r) : l ∈ labelsOf records := by
  rw [labelsOf, List.mem_dedup]
  exact latestByLabel_label h ▸ List.mem_map_of_mem (fun r => r.label) (latestByLabel_mem h)

/-- Core invariant of the backward walk: a successful run appends to the
accumulator a non-empty block `w` that starts at the record of the current
label, is linked by parent pointers through the lookup map, stops at an
anchor or at a locally-present parent, and whose non-final records all
continued the walk. -/
theorem planRestoreLoop_ok_invariant (lookup : String → Option ManifestRecord)
    (ex : String → Bool) :
    ∀ fuel cur acc out, planRestoreLoop lookup ex fuel cur acc = some (.ok out) →
      ∃ w, out = acc ++ w ∧ w ≠ [] ∧ w.head? = lookup cur ∧
        (∀ lst, w.getLast? = some lst →
          lst.record_type = "anchor" ∨
            (lst.record_type ≠ "anchor" ∧ lst.parent ≠ "" ∧ ex lst.parent = true)) ∧
        List.Chain' (fun a b => lookup a.parent = some b) w ∧
        ∀ r ∈ w.dropLast, r.record_type ≠ "anchor" ∧ r.parent ≠ "" ∧ ex r.parent = false := by
  intro fuel
  induction fuel with
  | zero =>
    intro cur acc out h
    simp [planRestoreLoop] at h
  | succ n ih =>
    intro cur acc out h
    rw [planRestoreLoop] at h
    cases hl : lookup cur with
    | none => simp only [hl] at h; simp at h
    | some record =>
      simp only [hl] at h
      by_cases ha : record.record_type = "anchor"
      · rw [if_pos (by simpa using ha)] at h
        have hout : out = acc ++ [record] := by simpa using h.symm
        refine ⟨[record], hout, by simp, by simp, ?_, by simp, by simp⟩
        intro lst hlst
        simp at hlst
        exact Or.inl (hlst ▸ ha)
      · rw [if_neg (by simpa using ha)] at h
        by_cases hp : record.parent = ""
        · rw [if_pos (by simpa using hp)] at h
          simp at h
        · rw [if_neg (by simpa using hp)] at h
          by_cases hex : ex record.parent = true
          · rw [if_pos hex] at h
            have hout : out = acc ++ [record] := by simpa using h.symm
            refine ⟨[record], hout, by simp, by simp, ?_, by simp, by simp⟩
            intro lst hlst
            simp at hlst
            subst hlst
            exact Or.inr ⟨ha, hp, hex⟩
          · rw [if_neg hex] at h
            obtain ⟨w', hout, hne, hhead, hlast, hchain, hcont⟩ :=
              ih record.parent (acc ++ [record]) out h
            cases w' with
            | nil => exact absurd rfl hne
            | cons b u =>
              refine ⟨record :: b :: u, by simpa using hout, by simp, by simp, ?_, ?_, ?_⟩
              · intro lst hlst
                rw [List.getLast?_cons_cons] at hlst
                exact hlast lst hlst
              · refine List.chain'_cons.mpr ⟨?_, hchain⟩
                have hh : (b :: u).head? = lookup record.parent := hhead
                simp only [List.head?_cons] at hh
                exact hh.symm
              · intro r hr
                rw [List.dropLast_cons₂, List.mem_cons] at hr
                rcases hr with rfl | hr'
                · exact ⟨ha, hp, by simpa using hex⟩
                · exact hcont r hr'

/-- The pull-loop is the restore loop with an always-false existence check. -/
theorem planPullLoop_eq_planRestoreLoop (lookup : String → Option ManifestRecord) :
    ∀ fuel cur acc,
      planPullLoop lookup fuel cur acc = planRestoreLoop lookup (fun _ => false) fuel cur acc := by
  intro fuel
  induction fuel with
  | zero => intro cur acc; rfl
  | succ n ih =>
    intro cur acc
    rw [planPullLoop, planRestoreLoop]
    cases hl : lookup cur with
    | none => rfl
    | some record =>
      simp only
      by_cases ha : (record.record_type == "anchor") = true
      · rw [if_pos ha, if_pos ha]
      · rw [if_neg ha, if_neg ha]
        by_cases hp : (record.parent == "") = true
        · rw [if_pos hp, if_pos hp]
        · rw [if_neg hp, if_neg hp, if_neg (by simp)]
          exact ih record.parent (acc ++ [record])

/-- Unpacking of the `.map (·.map List.reverse)` wrapper shared by
`plan_restore` and `plan_chain_from_records`. -/
theorem planLoopMapped_ok {lookup : String → Option ManifestRecord} {ex : String → Bool}
    {fuel : Nat} {cur : String} {chain : List ManifestRecord}
    (h : (planRestoreLoop lookup ex fuel cur []).map (fun res => res.map List.reverse)
      = some (.ok chain)) :
    ∃ out, planRestoreLoop lookup ex fuel cur [] = some (.ok out) ∧ chain = out.reverse := by
  cases hres : planRestoreLoop lookup ex fuel cur [] with
  | none => rw [hres] at h; simp at h
  | some res =>
    rw [hres] at h
    cases res with
    | error e => simp [Except.map] at h
    | ok out =>
      refine ⟨out, rfl, ?_⟩
      simp [Except.map] at h
      exact h.symm

/-- Unpacking of a successful `plan_restore` down to the loop invariant data. -/
theorem plan_restore_ok_unpack {records : List ManifestRecord} {target : String}
    {ex : String → Bool} {fuel : Nat} {chain : List ManifestRecord}
    (h : plan_restore records target ex fuel = some (.ok chain)) :
    ∃ resolved out, resolve_label_input records target = .ok resolved ∧
      planRestoreLoop (latestByLabel records) ex fuel resolved [] = some (.ok out) ∧
      chain = out.reverse := by
  rw [plan_restore] at h
  by_cases he : records.isEmpty
  · rw [if_pos he] at h; simp at h
  · rw [if_neg he] at h
    cases hres : resolve_label_input records target with
    | error e => rw [hres] at h; simp at h
    | ok resolved =>
      rw [hres] at h
      obtain ⟨out, hloop, hchain⟩ := planLoopMapped_ok h
      exact ⟨resolved, out, rfl, hloop, hchain⟩

/-! ## Claim theorems -/

/-- C1: chain resolution (`plan_restore`) returns the restore chain
oldest-first: the resolved target's record is the last chain element, the
first chain element is an anchor or a record whose parent snapshot exists
locally, consecutive elements are linked backward through the
most-recent-record-per-label map, and every element after the first continued
the walk (non-anchor, non-empty parent, parent snapshot absent). On the
two-record manifest of `tests/restore_plan.rs`, resolving "2024-02" yields
`[anchor, incremental]` with no local snapshots and `[incremental]` when the
parent snapshot 2024-01 exists locally. -/
theorem c1_plan_restore_chain :
    (∀ records target ex fuel chain,
      plan_restore records target ex fuel = some (.ok chain) →
      ∃ resolved, resolve_label_input records target = .ok resolved ∧
        chain ≠ [] ∧
        chain.getLast? = latestByLabel records resolved ∧
        (∀ first, chain.head? = some first →
          first.record_type = "anchor" ∨ ex first.parent = true) ∧
        List.Chain' (fun a b => latestByLabel records b.parent = some a) chain ∧
        ∀ r ∈ chain.tail, r.record_type ≠ "anchor" ∧ r.parent ≠ "" ∧ ex r.parent = false) ∧
    plan_restore [c1Anchor, c1Incr] "2024-02" (fun _ => false) 2
      = some (.ok [c1Anchor, c1Incr]) ∧
    plan_restore [c1Anchor, c1Incr] "2024-02" (fun l => l == "2024-01") 2
      = some (.ok [c1Incr]) := by
  refine ⟨?_, by decide, by decide⟩
  intro records target ex fuel chain h
  obtain ⟨resolved, out, hres, hloop, hchain⟩ := plan_restore_ok_unpack h
  obtain ⟨w, hout, hne, hhead, hlast, hch, hcont⟩ :=
    planRestoreLoop_ok_invariant (latestByLabel records) ex fuel resolved [] out hloop
  rw [List.nil_append] at hout
  subst hout
  subst hchain
  refine ⟨resolved, hres, by simpa using hne, ?_, ?_, ?_, ?_⟩
  · rw [List.getLast?_reverse]
    exact hhead
  · intro first hfirst
    rw [List.head?_reverse] at hfirst
    rcases hlast first hfirst with h' | h'
    · exact Or.inl h'
    · exact Or.inr h'.2.2
  · rw [List.chain'_reverse]
    exact hch
  · intro r hr
    rw [List.tail_reverse_eq_reverse_dropLast, List.mem_reverse] at hr
    exact hcont r hr

/-- Witness for C1: the general clause applied to the concrete two-record
manifest of `tests/restore_plan.rs`. -/
theorem c1_witness :
    ∃ resolved, resolve_label_input [c1Anchor, c1Incr] "2024-02" = .ok resolved ∧
      ([c1Anchor, c1Incr] : List ManifestRecord) ≠ [] ∧
      ([c1Anchor, c1Incr] : List ManifestRecord).getLast?
        = latestByLabel [c1Anchor, c1Incr] resolved ∧
      (∀ first, ([c1Anchor, c1Incr] : List ManifestRecord).head? = some first →
        first.record_type = "anchor" ∨ (fun _ => false) first.parent = true) ∧
      List.Chain' (fun a b => latestByLabel [c1Anchor, c1Incr] b.parent = some a)
        [c1Anchor, c1Incr] ∧
      ∀ r ∈ ([c1Anchor, c1Incr] : List ManifestRecord).tail,
        r.record_type ≠ "anchor" ∧ r.parent ≠ "" ∧ (fun _ => false) r.parent = false :=
  c1_plan_restore_chain.1 [c1Anchor, c1Incr] "2024-02" (fun _ => false) 2
    [c1Anchor, c1Incr] (by decide)

/-- C6: reaching a record of incremental kind with an empty parent field makes
the resolution loop fail with the missing-parent chain-integrity error naming
the current label — in both `plan_restore` and `plan_chain_from_records` — and
a successfully returned chain never contains an incremental record with an
empty parent. -/
theorem c6_missing_parent_error :
    (∀ lookup ex fuel cur acc r, lookup cur = some r →
      r.record_type ≠ "anchor" → r.parent = "" →
      planRestoreLoop lookup ex (fuel + 1) cur acc
        = some (.error (.missingParent cur))) ∧
    (∀ lookup fuel cur acc r, lookup cur = some r →
      r.record_type ≠ "anchor" → r.parent = "" →
      planPullLoop lookup (fuel + 1) cur acc = some (.error (.missingParent cur))) ∧
    (∀ records target ex fuel chain, plan_restore records target ex fuel = some (.ok chain) →
      ∀ r ∈ chain, r.record_type = "anchor" ∨ r.parent ≠ "") ∧
    (∀ records target fuel chain, plan_chain_from_records records target fuel = some (.ok chain) →
      ∀ r ∈ chain, r.record_type = "anchor" ∨ r.parent ≠ "") := by
  have step : ∀ (lookup : String → Option ManifestRecord) (ex : String → Bool)
      (fuel : Nat) (cur : String) (acc : List ManifestRecord) (r : ManifestRecord),
      lookup cur = some r → r.record_type ≠ "anchor" → r.parent = "" →
      planRestoreLoop lookup ex (fuel + 1) cur acc
        = some (.error (.missingParent cur)) := by
    intro lookup ex fuel cur acc r hl ha hp
    rw [planRestoreLoop]
    simp only [hl]
    rw [if_neg (by simpa using ha), if_pos (by simpa using hp)]
  have fromLoop : ∀ (records : List ManifestRecord) (ex : String → Bool)
      (fuel : Nat) (resolved : String) (out : List ManifestRecord),
      planRestoreLoop (latestByLabel records) ex fuel resolved [] = some (.ok out) →
      ∀ r ∈ out.reverse, r.record_type = "anchor" ∨ r.parent ≠ "" := by
    intro records ex fuel resolved out hloop r hr
    obtain ⟨w, hout, hne, hhead, hlast, hch, hcont⟩ :=
      planRestoreLoop_ok_invariant (latestByLabel records) ex fuel resolved [] out hloop
    rw [List.nil_append] at hout
    rw [hout, List.mem_reverse] at hr
    rcases mem_dropLast_or_getLast? w r hr with h' | h'
    · exact Or.inr (hcont r h').2.1
    · rcases hlast r h' with h'' | h''
      · exact Or.inl h''
      · exact Or.inr h''.2.1
  refine ⟨step, ?_, ?_, ?_⟩
  · intro lookup fuel cur acc r hl ha hp
    rw [planPullLoop_eq_planRestoreLoop]
    exact step lookup (fun _ => false) fuel cur acc r hl ha hp
  · intro records target ex fuel chain h r hr
    obtain ⟨resolved, out, hres, hloop, hchain⟩ := plan_restore_ok_unpack h
    subst hchain
    exact fromLoop records ex fuel resolved out hloop r hr
  · intro records target fuel chain h r hr
    rw [plan_chain_from_records] at h
    have h' : (planRestoreLoop (latestByLabel records) (fun _ => false) fuel target []).map
        (fun res => res.map List.reverse) = some (.ok chain) := by
      rw [← planPullLoop_eq_planRestoreLoop]
      exact h
    obtain ⟨out, hloop, hchain⟩ := planLoopMapped_ok h'
    subst hchain
    exact fromLoop records (fun _ => false) fuel target out hloop r hr

/-- Witness for C6: on a manifest whose only row for 2024-03 is incremental
with an empty parent, the restore loop fails naming 2024-03. -/
theorem c6_witness :
    planRestoreLoop (latestByLabel [c6Bad]) (fun _ => false) 1 "2024-03" []
      = some (.error (.missingParent "2024-03")) :=
  c6_missing_parent_error.1 (latestByLabel [c6Bad]) (fun _ => false) 0 "2024-03" [] c6Bad
    (by decide) (by decide) (by decide)

/-- If the restore loop is still running after `fuel` steps, the parent walk
from the current label is defined for every step count below `fuel`, and each
visited label occurs in the manifest. -/
theorem planRestoreLoop_none_iter (records : List ManifestRecord) (ex : String → Bool) :
    ∀ fuel cur acc, planRestoreLoop (latestByLabel records) ex fuel cur acc = none →
      ∀ k, k < fuel → ∃ l, iterParent records k cur = some l ∧ l ∈ labelsOf records := by
  intro fuel
  induction fuel with
  | zero => intro cur acc _ k hk; omega
  | succ n ih =>
    intro cur acc h k hk
    rw [planRestoreLoop] at h
    cases hl : latestByLabel records cur with
    | none => simp only [hl] at h; cases h
    | some record =>
      simp only [hl] at h
      by_cases ha : (record.record_type == "anchor") = true
      · rw [if_pos ha] at h; cases h
      · rw [if_neg ha] at h
        by_cases hp : (record.parent == "") = true
        · rw [if_pos hp] at h; cases h
        · rw [if_neg hp] at h
          by_cases hex : ex record.parent = true
          · rw [if_pos hex] at h; cases h
          · rw [if_neg hex] at h
            cases k with
            | zero => exact ⟨cur, rfl, latestByLabel_mem_labelsOf hl⟩
            | succ k' =>
              have hstep : parentStepMap records cur = some record.parent := by
                rw [parentStepMap, hl]
                rfl
              have hred : iterParent records (k' + 1) cur
                  = iterParent records k' record.parent := by
                rw [iterParent]
                simp only [hstep]
              rw [hred]
              exact ih record.parent (acc ++ [record]) h k' (by omega)

/-- Splitting an iterated parent walk at an intermediate point. -/
theorem iterParent_add (records : List ManifestRecord) :
    ∀ m n l x, iterParent records m l = some x →
      iterParent records (m + n) l = iterParent records n x := by
  intro m
  induction m with
  | zero =>
    intro n l x h
    rw [iterParent] at h
    cases h
    rw [Nat.zero_add]
  | succ m' ih =>
    intro n l x h
    rw [iterParent] at h
    cases hs : parentStepMap records l with
    | none => rw [hs] at h; cases h
    | some p =>
      rw [hs] at h
      rw [Nat.succ_add, iterParent]
      simp only [hs]
      exact ih n p x h

/-- Acyclic parent pointers make the restore loop halt within
`(labelsOf records).length + 1` iterations: a longer run would visit more
manifest labels than exist, and a repeated label is a parent cycle. -/
theorem acyclic_planRestoreLoop_terminates (records : List ManifestRecord)
    (hacy : AcyclicParents records) (ex : String → Bool) (target : String) :
    (planRestoreLoop (latestByLabel records) ex
      ((labelsOf records).length + 1) target []).isSome := by
  by_contra hns
  have hnone : planRestoreLoop (latestByLabel records) ex
      ((labelsOf records).length + 1) target [] = none :=
    Option.not_isSome_iff_eq_none.mp hns
  have hiter := planRestoreLoop_none_iter records ex
    ((labelsOf records).length + 1) target [] hnone
  have hmem : ∀ k : Fin ((labelsOf records).length + 1),
      ∃ l, iterParent records k.val target = some l ∧ l ∈ labelsOf records :=
    fun k => hiter k.val k.isLt
  choose g hg hgmem using hmem
  have hcard : Fintype.card {x // x ∈ (labelsOf records).toFinset}
      < Fintype.card (Fin ((labelsOf records).length + 1)) := by
    rw [Fintype.card_coe, Fintype.card_fin]
    have := (labelsOf records).toFinset_card_le
    omega
  obtain ⟨a, b, hab, heq⟩ := Fintype.exists_ne_map_eq_of_card_lt
    (fun k => (⟨g k, List.mem_toFinset.mpr (hgmem k)⟩ :
      {x // x ∈ (labelsOf records).toFinset})) hcard
  have heq' : g a = g b := by simpa using heq
  rcases Fin.lt_or_lt_of_ne hab with hlt | hlt
  all_goals {
    first
    | (have hsplit := iterParent_add records a.val (b.val - a.val) target (g a) (hg a)
       rw [Nat.add_sub_cancel' (le_of_lt hlt)] at hsplit
       have hcyc : iterParent records (b.val - a.val) (g a) = some (g a) := by
         rw [← hsplit, hg b, heq']
       exact hacy (g a) (hgmem a) (b.val - a.val)
         (List.mem_range.mpr (by omega)) (by omega) hcyc)
    | (have hsplit := iterParent_add records b.val (a.val - b.val) target (g b) (hg b)
       rw [Nat.add_sub_cancel' (le_of_lt hlt)] at hsplit
       have hcyc : iterParent records (a.val - b.val) (g b) = some (g b) := by
         rw [← hsplit, hg a, heq']
       exact hacy (g b) (hgmem b) (a.val - b.val)
         (List.mem_range.mpr (by omega)) (by omega) hcyc)
  }

/-- On the two-record cyclic manifest the restore loop never finishes, for any
amount of fuel. -/
theorem cyclic_loop_runs_forever :
    ∀ fuel acc cur, (cur = "2024-01" ∨ cur = "2024-02") →
      planRestoreLoop (latestByLabel [c10CycA, c10CycB]) (fun _ => false) fuel cur acc
        = none := by
  intro fuel
  induction fuel with
  | zero => intro acc cur _; rfl
  | succ n ih =>
    intro acc cur hcur
    rcases hcur with rfl | rfl
    · rw [planRestoreLoop]
      have hl : latestByLabel [c10CycA, c10CycB] "2024-01" = some c10CycA := by decide
      simp only [hl]
      rw [if_neg (by decide), if_neg (by decide), if_neg (by decide)]
      exact ih (acc ++ [c10CycA]) "2024-02" (Or.inr rfl)
    · rw [planRestoreLoop]
      have hl : latestByLabel [c10CycA, c10CycB] "2024-02" = some c10CycB := by decide
      simp only [hl]
      rw [if_neg (by decide), if_neg (by decide), if_neg (by decide)]
      exact ih (acc ++ [c10CycB]) "2024-01" (Or.inl rfl)

/-- C10: when the parent relation induced by the label-to-most-recent-record
map is acyclic, the chain-resolution loop of both `plan_restore` and
`plan_chain_from_records` halts within `(number of labels) + 1` iterations,
for every target and every local-snapshot predicate; and on a concrete
manifest with cyclic parent pointers among incrementals (and no early stop)
the loop never halts, whatever the fuel. -/
theorem c10_chain_walk_termination :
    (∀ records, AcyclicParents records → ∀ ex target,
      (planRestoreLoop (latestByLabel records) ex
        ((labelsOf records).length + 1) target []).isSome ∧
      (planPullLoop (latestByLabel records)
        ((labelsOf records).length + 1) target []).isSome) ∧
    (∀ fuel acc, planRestoreLoop (latestByLabel [c10CycA, c10CycB]) (fun _ => false) fuel
      "2024-01" acc = none) := by
  constructor
  · intro records hacy ex target
    refine ⟨acyclic_planRestoreLoop_terminates records hacy ex target, ?_⟩
    rw [planPullLoop_eq_planRestoreLoop]
    exact acyclic_planRestoreLoop_terminates records hacy (fun _ => false) target
  · intro fuel acc
    exact cyclic_loop_runs_forever fuel acc "2024-01" (Or.inl rfl)

/-- Witness for C10: the acyclicity hypothesis discharged on the concrete
two-record manifest of `tests/restore_plan.rs`. -/
theorem c10_witness :
    (planRestoreLoop (latestByLabel [c1Anchor, c1Incr]) (fun _ => false)
      ((labelsOf [c1Anchor, c1Incr]).length + 1) "2024-02" []).isSome ∧
    (planPullLoop (latestByLabel [c1Anchor, c1Incr])
      ((labelsOf [c1Anchor, c1Incr]).length + 1) "2024-02" []).isSome :=
  c10_chain_walk_termination.1 [c1Anchor, c1Incr] (by decide) (fun _ => false) "2024-02"

/-- C8: a pipeline run reports success exactly when all three stages exit
with status zero; a reported failure always names a stage that really exited
non-zero; and when only the middle stage (zstd) fails, the reported error
names exactly that stage — for both the export and the import pipeline. -/
theorem c8_pipeline_status_aggregation :
    (∀ send zstd age : Nat,
      (run_send_pipeline_report send zstd age = .ok () ↔ send = 0 ∧ zstd = 0 ∧ age = 0) ∧
      (∀ st, run_send_pipeline_report send zstd age = .error st →
        (match st with
         | .btrfsSend => send
         | .zstd => zstd
         | .age => age) ≠ 0) ∧
      (send = 0 → zstd ≠ 0 → age = 0 →
        run_send_pipeline_report send zstd age = .error .zstd)) ∧
    (∀ age zstd recv : Nat,
      (run_receive_pipeline_report age zstd recv = .ok () ↔ age = 0 ∧ zstd = 0 ∧ recv = 0) ∧
      (∀ st, run_receive_pipeline_report age zstd recv = .error st →
        (match st with
         | .age => age
         | .zstd => zstd
         | .btrfsReceive => recv) ≠ 0) ∧
      (age = 0 → zstd ≠ 0 → recv = 0 →
        run_receive_pipeline_report age zstd recv = .error .zstd)) := by
  constructor
  · intro send zstd age
    refine ⟨?_, ?_, ?_⟩
    · rw [run_send_pipeline_report]
      split_ifs with h1 h2 h3 <;> simp_all
    · intro st hst
      rw [run_send_pipeline_report] at hst
      split_ifs at hst with h1 h2 h3 <;> cases hst <;> assumption
    · intro h1 h2 h3
      rw [run_send_pipeline_report, if_neg (by omega), if_pos h2]
  · intro age zstd recv
    refine ⟨?_, ?_, ?_⟩
    · rw [run_receive_pipeline_report]
      split_ifs with h1 h2 h3 <;> simp_all
    · intro st hst
      rw [run_receive_pipeline_report] at hst
      split_ifs at hst with h1 h2 h3 <;> cases hst <;> assumption
    · intro h1 h2 h3
      rw [run_receive_pipeline_report, if_neg (by omega), if_pos h2]

/-- Witness for C8: with exit statuses 0, 1, 0 the export pipeline reports the
zstd stage and the import pipeline likewise. -/
theorem c8_witness :
    run_send_pipeline_report 0 1 0 = .error .zstd ∧
    run_receive_pipeline_report 0 1 0 = .error .zstd :=
  ⟨(c8_pipeline_status_aggregation.1 0 1 0).2.2 rfl (by decide) rfl,
   (c8_pipeline_status_aggregation.2 0 1 0).2.2 rfl (by decide) rfl⟩

/-- C9: in both pipeline functions all three stages are spawned — each
non-initial stage's stdin wired to the previous stage's stdout pipe — before
any stage is waited on: in the program-order event trace every wait comes
after every spawn, there are exactly three spawns and three waits, and the
intermediate pipes connect send→zstd→age (export) and age→zstd→receive
(import). -/
theorem c9_spawn_before_wait :
    spawnsBeforeWaits send_pipeline_events ∧
    spawnsBeforeWaits receive_pipeline_events ∧
    (send_pipeline_events.filter PipeEvent.isSpawn
      = [.spawn "btrfs send" none, .spawn "zstd" (some "btrfs send"),
         .spawn "age" (some "zstd")]) ∧
    (send_pipeline_events.filter PipeEvent.isWait
      = [.wait "age", .wait "zstd", .wait "btrfs send"]) ∧
    (receive_pipeline_events.filter PipeEvent.isSpawn
      = [.spawn "age" none, .spawn "zstd" (some "age"),
         .spawn "btrfs receive" (some "zstd")]) ∧
    (receive_pipeline_events.filter PipeEvent.isWait
      = [.wait "btrfs receive", .wait "zstd", .wait "age"]) := by
  refine ⟨?_, ?_, by decide, by decide, by decide, by decide⟩ <;>
    (intro i j ei hei ej hej hw hs
     rcases Nat.lt_or_ge i 6 with hi6 | hi6
     · rcases Nat.lt_or_ge j 6 with hj6 | hj6
       · interval_cases i <;> interval_cases j <;>
           (simp only [send_pipeline_events, receive_pipeline_events, List.get?,
              Option.mem_def, Option.some.injEq] at hei hej
            subst hei
            subst hej
            first
              | omega
              | (cases hw; done)
              | (cases hs; done))
       · rw [List.get?_eq_none.mpr
             (by simp [send_pipeline_events, receive_pipeline_events]; omega)] at hej
         simp at hej
     · rw [List.get?_eq_none.mpr
           (by simp [send_pipeline_events, receive_pipeline_events]; omega)] at hei
       simp at hei)

/-- The policy fold after the seen-anchor flag is set: it saturating-adds the
bytes of every remaining record not equal to the last anchor. -/
theorem policyFoldSeen_eq (la : ManifestRecord) :
    ∀ (rs : List ManifestRecord) (s : Nat),
      (rs.foldl
        (fun st r => if r = la then (true, st.2)
          else if st.1 then (true, satAdd st.2 r.bytes) else st) ((true : Bool), s)).2
      = (rs.filter (fun r => !(r == la))).foldl (fun a r => satAdd a r.bytes) s := by
  intro rs
  induction rs with
  | nil => intro s; rfl
  | cons r rest ih =>
    intro s
    by_cases h : r = la
    · rw [List.foldl_cons, if_pos h, List.filter_cons_of_neg (by simp [h])]
      exact ih s
    · rw [List.foldl_cons, if_neg h, if_pos rfl,
        List.filter_cons_of_pos (by simp [h]), List.foldl_cons]
      exact ih (satAdd s r.bytes)

/-- The whole policy fold: nothing is summed before the first record equal to
the last anchor; afterwards every record not equal to it is summed. -/
theorem sumIncrAfterAnchor_eq (la : ManifestRecord) :
    ∀ rs : List ManifestRecord,
      sumIncrAfterAnchor rs la
      = ((rs.dropWhile (fun r => !(r == la))).filter (fun r => !(r == la))).foldl
          (fun a r => satAdd a r.bytes) 0 := by
  intro rs
  induction rs with
  | nil => rfl
  | cons r rest ih =>
    by_cases h : r = la
    · rw [sumIncrAfterAnchor, List.foldl_cons, if_pos h,
        List.dropWhile_cons_of_neg (by simp [h]),
        List.filter_cons_of_neg (by simp [h])]
      exact policyFoldSeen_eq la rest 0
    · rw [sumIncrAfterAnchor, List.foldl_cons, if_neg h, if_neg (by simp),
        List.dropWhile_cons_of_pos (by simp [h])]
      exact ih

/-- A saturating fold is the saturation of the plain sum. -/
theorem satFold_eq_min :
    ∀ (xs : List ManifestRecord) (s : Nat), s ≤ U64MAX →
      xs.foldl (fun a r => satAdd a r.bytes) s
        = min (s + (xs.map (fun r => r.bytes)).sum) U64MAX := by
  intro xs
  induction xs with
  | nil =>
    intro s hs
    simp [Nat.min_eq_left hs]
  | cons x rest ih =>
    intro s hs
    rw [List.foldl_cons, ih (satAdd s x.bytes) (Nat.min_le_right _ _),
      List.map_cons, List.sum_cons]
    rw [satAdd]
    omega

/-- Truncating division (Rust `i64`) and floor division agree on a threshold
comparison with a positive threshold. -/
theorem tdiv_threshold_iff_fdiv (d M : Int) (hM : 1 ≤ M) :
    (M ≤ d.tdiv 2592000 ↔ M ≤ d.fdiv 2592000) := by
  rcases le_or_lt 0 d with h | h
  · rw [Int.tdiv_eq_ediv h (by norm_num), Int.fdiv_eq_ediv _ (by norm_num)]
  · constructor
    · intro hc
      exfalso
      have h1 : d.tdiv 2592000 = -((-d).tdiv 2592000) := by
        rw [← Int.neg_tdiv, neg_neg]
      have h2 : 0 ≤ (-d).tdiv 2592000 :=
        Int.tdiv_nonneg (by omega) (by norm_num)
      omega
    · intro hc
      exfalso
      have h1 : d.fdiv 2592000 = d / 2592000 :=
        Int.fdiv_eq_ediv _ (by norm_num)
      have h2 : d / 2592000 ≤ 0 / 2592000 :=
        Int.ediv_le_ediv (by norm_num) (le_of_lt h)
      rw [Int.zero_ediv] at h2
      omega

/-- C2 (amended): the policy returns Anchor on an empty manifest; fails with
the no-anchor error on a non-empty manifest without an anchor row; and
otherwise — given that the last anchor's timestamp parses, its size fits in a
u64 and the month threshold is at least 1 — returns Anchor exactly when
`floor((now - anchor_ts) / 30 days)` reaches the threshold or the bytes of
the records after the first row equal to the last anchor (rows equal to it
excluded) reach `max(anchor.bytes, 1)`, and returns Incremental otherwise.
The two concrete scenarios of the claim hold: anchor(100 bytes) at
now - 40 days plus one incremental of 50 bytes gives Incremental, and a
second 50-byte incremental flips the decision to Anchor. -/
theorem c2_policy_decision :
    (∀ input, decide_snapshot_type [] input = .ok .anchor) ∧
    (∀ records input, records ≠ [] → (∀ r ∈ records, r.record_type ≠ "anchor") →
      decide_snapshot_type records input = .error .noAnchor) ∧
    (∀ records input la anchorTs, findLastAnchor records = some la →
      parseRfc3339 la.ts = some anchorTs →
      la.bytes < 2 ^ 64 →
      1 ≤ input.max_months_between_anchor →
      ((decide_snapshot_type records input = .ok .anchor ↔
        (input.max_months_between_anchor ≤ (input.now - anchorTs).fdiv 2592000 ∨
         max la.bytes 1 ≤
          (((records.dropWhile (fun r => !(r == la))).filter (fun r => !(r == la))).map
            (fun r => r.bytes)).sum)) ∧
       (decide_snapshot_type records input = .ok .incremental ↔
        ¬(input.max_months_between_anchor ≤ (input.now - anchorTs).fdiv 2592000 ∨
          max la.bytes 1 ≤
           (((records.dropWhile (fun r => !(r == la))).filter (fun r => !(r == la))).map
             (fun r => r.bytes)).sum)))) ∧
    decide_snapshot_type [c2Anchor, c2Incr50] c2Input = .ok .incremental ∧
    decide_snapshot_type [c2Anchor, c2Incr50, c2Incr50b] c2Input = .ok .anchor := by
  refine ⟨?_, ?_, ?_, by decide, by decide⟩
  · intro input
    rfl
  · intro records input hne hno
    rw [decide_snapshot_type, if_neg (by simpa [List.isEmpty_iff] using hne)]
    have hfind : findLastAnchor records = none := by
      rw [findLastAnchor, List.find?_eq_none]
      intro r hr
      simpa using hno r (List.mem_reverse.mp hr)
    rw [hfind]
  · intro records input la anchorTs hfind hts hla hM
    have hne : records ≠ [] := by
      intro hc
      rw [hc] at hfind
      simp [findLastAnchor] at hfind
    have hsum : max la.bytes 1 ≤ sumIncrAfterAnchor records la ↔
        max la.bytes 1 ≤
          (((records.dropWhile (fun r => !(r == la))).filter (fun r => !(r == la))).map
            (fun r => r.bytes)).sum := by
      rw [sumIncrAfterAnchor_eq, satFold_eq_min _ 0 (by rw [U64MAX]; omega),
        Nat.zero_add]
      have hb : max la.bytes 1 ≤ U64MAX := by rw [U64MAX]; omega
      omega
    have hmon := tdiv_threshold_iff_fdiv (input.now - anchorTs)
      input.max_months_between_anchor hM
    rw [decide_snapshot_type, if_neg (by simpa [List.isEmpty_iff] using hne)]
    simp only [hfind, hts]
    constructor
    · by_cases h1 : input.max_months_between_anchor ≤ (input.now - anchorTs).tdiv 2592000
      · rw [if_pos h1]
        constructor
        · intro _
          exact Or.inl (hmon.mp h1)
        · intro _
          rfl
      · rw [if_neg h1]
        by_cases h2 : max la.bytes 1 ≤ sumIncrAfterAnchor records la
        · rw [if_pos h2]
          constructor
          · intro _
            exact Or.inr (hsum.mp h2)
          · intro _
            rfl
        · rw [if_neg h2]
          constructor
          · intro hc
            cases hc
          · intro hc
            rcases hc with hc | hc
            · exact absurd (hmon.mpr hc) h1
            · exact absurd (hsum.mpr hc) h2
    · by_cases h1 : input.max_months_between_anchor ≤ (input.now - anchorTs).tdiv 2592000
      · rw [if_pos h1]
        constructor
        · intro hc
          cases hc
        · intro hc
          exact absurd (Or.inl (hmon.mp h1)) hc
      · rw [if_neg h1]
        by_cases h2 : max la.bytes 1 ≤ sumIncrAfterAnchor records la
        · rw [if_pos h2]
          constructor
          · intro hc
            cases hc
          · intro hc
            exact absurd (Or.inr (hsum.mp h2)) hc
        · rw [if_neg h2]
          constructor
          · intro _
            intro hc
            rcases hc with hc | hc
            · exact absurd (hmon.mpr hc) h1
            · exact absurd (hsum.mpr hc) h2
          · intro _
            rfl

/-- Counterexample for C2 as stated: on the manifest `[A, I(100), A]` whose
anchor row A (100 bytes) appears twice with a 100-byte incremental in
between, the spec-words rule — summing only the records strictly after the
last anchor in store order — yields Incremental, but the code sums the
incremental sitting before the last anchor (it starts summing at the first
row equal to the last anchor) and yields Anchor. -/
theorem c2_counterexample :
    decide_snapshot_type [c2Anchor, c2Incr100, c2Anchor] c2Input = .ok .anchor ∧
    specClaimDecideC2 [c2Anchor, c2Incr100, c2Anchor] c2Input = .ok .incremental := by
  constructor <;> decide

/-- Witness for C2: the characterisation clause instantiated on the concrete
single-anchor manifest with one 50-byte incremental. -/
theorem c2_witness :
    (decide_snapshot_type [c2Anchor, c2Incr50] c2Input = .ok .anchor ↔
      (c2Input.max_months_between_anchor
          ≤ (c2Input.now - 1704067200).fdiv 2592000 ∨
       max c2Anchor.bytes 1 ≤
        ((([c2Anchor, c2Incr50].dropWhile (fun r => !(r == c2Anchor))).filter
            (fun r => !(r == c2Anchor))).map (fun r => r.bytes)).sum)) ∧
    (decide_snapshot_type [c2Anchor, c2Incr50] c2Input = .ok .incremental ↔
      ¬(c2Input.max_months_between_anchor
          ≤ (c2Input.now - 1704067200).fdiv 2592000 ∨
        max c2Anchor.bytes 1 ≤
         ((([c2Anchor, c2Incr50].dropWhile (fun r => !(r == c2Anchor))).filter
             (fun r => !(r == c2Anchor))).map (fun r => r.bytes)).sum)) :=
  c2_policy_decision.2.2.1 [c2Anchor, c2Incr50] c2Input c2Anchor 1704067200
    (by decide) (by decide) (by decide) (by decide)

/-- Behaviour of the `resolve_latest_label` scan from an arbitrary best-so-far
state: the result keeps the current best when nothing later strictly exceeds
it, and otherwise picks the first record strictly exceeding it that no later
record strictly exceeds. -/
theorem resolveLatestAux_spec :
    ∀ (rs : List ManifestRecord) (t : Int) (lab : String),
      (∀ r ∈ rs, (parseRfc3339 r.ts).isSome) →
      (resolveLatestAux rs (some (t, lab)) = .ok (some lab) ∧
        ∀ r ∈ rs, parsedTs r ≤ t) ∨
      (∃ i, ∃ hi : i < rs.length,
        resolveLatestAux rs (some (t, lab)) = .ok (some (rs.get ⟨i, hi⟩).label) ∧
        t < parsedTs (rs.get ⟨i, hi⟩) ∧
        (∀ j, ∀ hj : j < rs.length,
          parsedTs (rs.get ⟨j, hj⟩) ≤ parsedTs (rs.get ⟨i, hi⟩)) ∧
        (∀ j, ∀ hj : j < i,
          parsedTs (rs.get ⟨j, Nat.lt_trans hj hi⟩) < parsedTs (rs.get ⟨i, hi⟩))) := by
  intro rs
  induction rs with
  | nil =>
    intro t lab _
    left
    exact ⟨rfl, by simp⟩
  | cons r rest ih =>
    intro t lab hp
    obtain ⟨ts, hts⟩ := Option.isSome_iff_exists.mp (hp r (List.mem_cons_self r rest))
    have hpts : parsedTs r = ts := by rw [parsedTs, hts]; rfl
    have hprest : ∀ x ∈ rest, (parseRfc3339 x.ts).isSome :=
      fun x hx => hp x (List.mem_cons_of_mem r hx)
    rw [resolveLatestAux]
    simp only [hts]
    by_cases hlt : t < ts
    · rw [if_pos hlt]
      rcases ih ts r.label hprest with ⟨heq, hbound⟩ | ⟨i', hi', heq, htgt, hall, hfirst⟩
      · right
        refine ⟨0, by simp, heq, ?_, ?_, ?_⟩
        · have h0 : t < parsedTs r := by rw [hpts]; exact hlt
          exact h0
        · intro j hj
          cases j with
          | zero => exact le_refl _
          | succ j' =>
            have h1 : parsedTs (rest.get ⟨j', by simpa using hj⟩) ≤ parsedTs r := by
              rw [hpts]
              exact hbound _ (List.get_mem rest _ _)
            exact h1
        · intro j hj
          exact absurd hj (Nat.not_lt_zero j)
      · right
        refine ⟨i' + 1, by simpa using hi', heq, ?_, ?_, ?_⟩
        · exact lt_trans hlt htgt
        · intro j hj
          cases j with
          | zero =>
            have h1 : parsedTs r ≤ parsedTs (rest.get ⟨i', hi'⟩) := by
              rw [hpts]
              exact le_of_lt htgt
            exact h1
          | succ j' =>
            exact hall j' (by simpa using hj)
        · intro j hj
          cases j with
          | zero =>
            have h1 : parsedTs r < parsedTs (rest.get ⟨i', hi'⟩) := by
              rw [hpts]
              exact htgt
            exact h1
          | succ j' =>
            exact hfirst j' (by omega)
    · rw [if_neg hlt]
      rcases ih t lab hprest with ⟨heq, hbound⟩ | ⟨i', hi', heq, htgt, hall, hfirst⟩
      · left
        refine ⟨heq, ?_⟩
        intro x hx
        rw [List.mem_cons] at hx
        rcases hx with rfl | hx
        · rw [hpts]; omega
        · exact hbound x hx
      · right
        refine ⟨i' + 1, by simpa using hi', heq, ?_, ?_, ?_⟩
        · exact htgt
        · intro j hj
          cases j with
          | zero =>
            have h1 : parsedTs r ≤ parsedTs (rest.get ⟨i', hi'⟩) := by
              rw [hpts]
              exact le_of_lt (lt_of_le_of_lt (by omega) htgt)
            exact h1
          | succ j' =>
            exact hall j' (by simpa using hj)
        · intro j hj
          cases j with
          | zero =>
            have h1 : parsedTs r < parsedTs (rest.get ⟨i', hi'⟩) := by
              rw [hpts]
              exact lt_of_le_of_lt (by omega) htgt
            exact h1
          | succ j' =>
            exact hfirst j' (by omega)

/-- C5 (amended): on a non-empty record list whose timestamps all parse,
resolving the sentinel "latest" selects the record with the maximum parsed
RFC3339 timestamp across all records, regardless of label lexical order, with
timestamp ties broken by FIRST-seen-wins in iteration order (the scan replaces
its best candidate only on a strictly greater timestamp). -/
theorem c5_resolve_latest (records : List ManifestRecord) (hne : records ≠ [])
    (hp : ∀ r ∈ records, (parseRfc3339 r.ts).isSome) :
    ∃ i, ∃ hi : i < records.length,
      resolve_latest_label records = .ok (some (records.get ⟨i, hi⟩).label) ∧
      (∀ j, ∀ hj : j < records.length,
        parsedTs (records.get ⟨j, hj⟩) ≤ parsedTs (records.get ⟨i, hi⟩)) ∧
      (∀ j, ∀ hj : j < i,
        parsedTs (records.get ⟨j, Nat.lt_trans hj hi⟩) < parsedTs (records.get ⟨i, hi⟩)) := by
  cases records with
  | nil => exact absurd rfl hne
  | cons r rest =>
    obtain ⟨ts, hts⟩ := Option.isSome_iff_exists.mp (hp r (List.mem_cons_self r rest))
    have hpts : parsedTs r = ts := by rw [parsedTs, hts]; rfl
    have hprest : ∀ x ∈ rest, (parseRfc3339 x.ts).isSome :=
      fun x hx => hp x (List.mem_cons_of_mem r hx)
    have hstep : resolve_latest_label (r :: rest)
        = resolveLatestAux rest (some (ts, r.label)) := by
      rw [resolve_latest_label, resolveLatestAux]
      simp only [hts]
    rcases resolveLatestAux_spec rest ts r.label hprest with
      ⟨heq, hbound⟩ | ⟨i', hi', heq, htgt, hall, hfirst⟩
    · refine ⟨0, by simp, by rw [hstep]; exact heq, ?_, ?_⟩
      · intro j hj
        cases j with
        | zero => exact le_refl _
        | succ j' =>
          have h1 : parsedTs (rest.get ⟨j', by simpa using hj⟩) ≤ parsedTs r := by
            rw [hpts]
            exact hbound _ (List.get_mem rest _ _)
          exact h1
      · intro j hj
        exact absurd hj (Nat.not_lt_zero j)
    · refine ⟨i' + 1, by simpa using hi', by rw [hstep]; exact heq, ?_, ?_⟩
      · intro j hj
        cases j with
        | zero =>
          have h1 : parsedTs r ≤ parsedTs (rest.get ⟨i', hi'⟩) := by
            rw [hpts]
            exact le_of_lt htgt
          exact h1
        | succ j' =>
          exact hall j' (by simpa using hj)
      · intro j hj
        cases j with
        | zero =>
          have h1 : parsedTs r < parsedTs (rest.get ⟨i', hi'⟩) := by
            rw [hpts]
            exact htgt
          exact h1
        | succ j' =>
          exact hfirst j' (by omega)

/-- Counterexample for C5 as stated: two records with equal parsed timestamps
and distinct labels. The code keeps the first record seen (label 2024-01),
while the claim's last-seen-wins tie-break — `specClaimResolveLatest`, which
replaces its candidate on ties — selects the second (label 2024-02). -/
theorem c5_counterexample :
    resolve_latest_label [c5First, c5Second] = .ok (some "2024-01") ∧
    specClaimResolveLatest [c5First, c5Second] = .ok (some "2024-02") ∧
    parseRfc3339 c5First.ts = parseRfc3339 c5Second.ts ∧
    c5First.label ≠ c5Second.label := by
  refine ⟨by decide, by decide, by decide, by decide⟩

/-- Witness for C5: the amended selection rule applied to the concrete
two-record tie manifest. -/
theorem c5_witness :
    ∃ i, ∃ hi : i < ([c5First, c5Second] : List ManifestRecord).length,
      resolve_latest_label [c5First, c5Second]
        = .ok (some (([c5First, c5Second] : List ManifestRecord).get ⟨i, hi⟩).label) ∧
      (∀ j, ∀ hj : j < ([c5First, c5Second] : List ManifestRecord).length,
        parsedTs (([c5First, c5Second] : List ManifestRecord).get ⟨j, hj⟩)
          ≤ parsedTs (([c5First, c5Second] : List ManifestRecord).get ⟨i, hi⟩)) ∧
      (∀ j, ∀ hj : j < i,
        parsedTs (([c5First, c5Second] : List ManifestRecord).get ⟨j, Nat.lt_trans hj hi⟩)
          < parsedTs (([c5First, c5Second] : List ManifestRecord).get ⟨i, hi⟩)) :=
  c5_resolve_latest [c5First, c5Second] (by decide) (by decide)

/-- A push over records whose unsynced rows all have an existing, non-empty
local path succeeds and produces exactly the spec triple: one upload per
empty-keyed row, keys written back, changed-flag set iff some row was
unsynced. -/
theorem syncPushGo_good (root : String) (fe : String → Bool) :
    ∀ records : List ManifestRecord,
      (∀ r ∈ records, r.object_key = "" → r.local_path ≠ "" ∧ fe r.local_path = true) →
      syncPushGo root fe records = .ok
        ((records.filter (fun r => r.object_key == "")).map
           (fun r => (build_object_key root r.local_path, r.local_path)),
         records.map
           (fun r => if r.object_key == ""
             then { r with object_key := build_object_key root r.local_path } else r),
         records.any (fun r => r.object_key == "")) := by
  intro records
  induction records with
  | nil => intro _; rfl
  | cons r rest ih =>
    intro hgood
    have hrest : ∀ x ∈ rest, x.object_key = "" → x.local_path ≠ "" ∧ fe x.local_path = true :=
      fun x hx => hgood x (List.mem_cons_of_mem r hx)
    by_cases hk : r.object_key = ""
    · obtain ⟨hpath, hfe⟩ := hgood r (List.mem_cons_self r rest) hk
      rw [syncPushGo, if_neg (by simpa using hk), if_neg hpath,
        if_neg (by rw [hfe]; simp), ih hrest]
      rw [List.filter_cons_of_pos (by simpa using hk), List.map_cons, List.map_cons,
        List.any_cons, if_pos (by simpa using hk)]
      simp [Except.map, hk]
    · rw [syncPushGo, if_pos hk, ih hrest]
      rw [List.filter_cons_of_neg (by simpa using hk), List.map_cons,
        List.any_cons, if_neg (by simpa using hk)]
      simp [Except.map, hk]

/-- A push over records that all carry an object key touches nothing. -/
theorem syncPushGo_allSynced (root : String) (fe : String → Bool) :
    ∀ records : List ManifestRecord, (∀ r ∈ records, r.object_key ≠ "") →
      syncPushGo root fe records = .ok ([], records, false) := by
  intro records
  induction records with
  | nil => intro _; rfl
  | cons r rest ih =>
    intro hall
    rw [syncPushGo, if_pos (hall r (List.mem_cons_self r rest)),
      ih (fun x hx => hall x (List.mem_cons_of_mem r hx))]
    rfl

/-- C7 (amended): on records whose unsynced rows have valid local paths,
`sync_push` uploads exactly the records with an empty `object_key`, each under
the key derived by `build_object_key` from its local path, writes those keys
back leaving all other rows untouched, and rewrites the manifest exactly when
some row was unsynced. Provided every derived key is non-empty (the local path
lies strictly inside the storage root), a second push over the resulting
records uploads no artifact object, changes no record and does not rewrite the
manifest. -/
theorem c7_sync_push_idempotent :
    ∀ (root : String) (fe : String → Bool) (records : List ManifestRecord),
      (∀ r ∈ records, r.object_key = "" → r.local_path ≠ "" ∧ fe r.local_path = true) →
      sync_push root fe records = .ok
        ⟨(records.filter (fun r => r.object_key == "")).map
            (fun r => (build_object_key root r.local_path, r.local_path)),
         records.map (fun r => if r.object_key == ""
            then { r with object_key := build_object_key root r.local_path } else r),
         records.any (fun r => r.object_key == "")⟩ ∧
      ((∀ r ∈ records, r.object_key = "" → build_object_key root r.local_path ≠ "") →
        sync_push root fe
          (records.map (fun r => if r.object_key == ""
             then { r with object_key := build_object_key root r.local_path } else r))
          = .ok ⟨[],
              records.map (fun r => if r.object_key == ""
                then { r with object_key := build_object_key root r.local_path } else r),
              false⟩) := by
  intro root fe records hgood
  constructor
  · rw [sync_push, syncPushGo_good root fe records hgood]
    rfl
  · intro hkeys
    have hall : ∀ x ∈ records.map (fun r => if r.object_key == ""
        then { r with object_key := build_object_key root r.local_path } else r),
        x.object_key ≠ "" := by
      intro x hx
      rw [List.mem_map] at hx
      obtain ⟨r, hr, hxr⟩ := hx
      by_cases hk : r.object_key = ""
      · rw [if_pos (by simpa using hk)] at hxr
        rw [← hxr]
        exact hkeys r hr hk
      · rw [if_neg (by simpa using hk)] at hxr
        rw [← hxr]
        exact hk
    rw [sync_push, syncPushGo_allSynced root fe _ hall]
    rfl

/-- Witness for C7: a two-record manifest — one synced row, one unsynced row
under the storage root — pushed with an always-true file-existence check. -/
theorem c7_witness :
    sync_push "/ls" (fun _ => true) [c7Synced, c7New] = .ok
      ⟨(([c7Synced, c7New] : List ManifestRecord).filter
          (fun r => r.object_key == "")).map
          (fun r => (build_object_key "/ls" r.local_path, r.local_path)),
       ([c7Synced, c7New] : List ManifestRecord).map (fun r => if r.object_key == ""
          then { r with object_key := build_object_key "/ls" r.local_path } else r),
       ([c7Synced, c7New] : List ManifestRecord).any (fun r => r.object_key == "")⟩ ∧
    ((∀ r ∈ ([c7Synced, c7New] : List ManifestRecord), r.object_key = "" →
        build_object_key "/ls" r.local_path ≠ "") →
      sync_push "/ls" (fun _ => true)
        (([c7Synced, c7New] : List ManifestRecord).map (fun r => if r.object_key == ""
           then { r with object_key := build_object_key "/ls" r.local_path } else r))
        = .ok ⟨[],
            ([c7Synced, c7New] : List ManifestRecord).map (fun r => if r.object_key == ""
              then { r with object_key := build_object_key "/ls" r.local_path } else r),
            false⟩) :=
  c7_sync_push_idempotent "/ls" (fun _ => true) [c7Synced, c7New] (by decide)

/-- Counterexample for C7 as stated: an unsynced record whose local path
equals the storage root derives the empty object key, so pushing it a second
time (its row is unchanged by the first push) uploads the artifact again and
rewrites the manifest although no record changed. -/
theorem c7_counterexample :
    c7Deg.object_key = "" ∧
    sync_push "/ls" (fun _ => true) [c7Deg] = .ok ⟨[("", "/ls")], [c7Deg], true⟩ := by
  exact ⟨rfl, by decide⟩

/-! ## Artifact naming lemmas (claims C3 and C4) -/

theorem stripPrefixL_eq_some_iff (pre s t : List Char) :
    stripPrefixL pre s = some t ↔ s = pre ++ t := by
  rw [stripPrefixL]
  by_cases h : pre.isPrefixOf s
  · rw [if_pos h]
    obtain ⟨u, hu⟩ := List.isPrefixOf_iff_prefix.mp h
    subst hu
    rw [List.drop_left]
    constructor
    · intro he
      rw [Option.some_inj] at he
      rw [he]
    · intro he
      rw [List.append_cancel_left he]
  · rw [if_neg h]
    constructor
    · intro he
      cases he
    · intro he
      exact absurd (List.isPrefixOf_iff_prefix.mpr ⟨t, he.symm⟩) h

theorem stripPrefixL_append (pre rest : List Char) :
    stripPrefixL pre (pre ++ rest) = some rest :=
  (stripPrefixL_eq_some_iff pre (pre ++ rest) rest).mpr rfl

theorem stripSuffixL_eq_some_iff (suf s t : List Char) :
    stripSuffixL suf s = some t ↔ s = t ++ suf := by
  rw [stripSuffixL]
  by_cases h : suf.isSuffixOf s
  · rw [if_pos h]
    obtain ⟨u, hu⟩ := List.isSuffixOf_iff_suffix.mp h
    subst hu
    have hlen : (u ++ suf).length - suf.length = u.length := by
      rw [List.length_append]
      omega
    rw [hlen, List.take_left]
    constructor
    · intro he
      rw [Option.some_inj] at he
      rw [he]
    · intro he
      rw [List.append_cancel_right he]
  · rw [if_neg h]
    constructor
    · intro he
      cases he
    · intro he
      exact absurd (List.isSuffixOf_iff_suffix.mpr ⟨t, he.symm⟩) h

theorem stripSuffixL_append (rest suf : List Char) :
    stripSuffixL suf (rest ++ suf) = some rest :=
  (stripSuffixL_eq_some_iff suf (rest ++ suf) rest).mpr rfl

/-- A needle starting with `c` is first found right after a `c`-free block. -/
theorem findSeq_block (c : Char) (tl : List Char) :
    ∀ (l rest : List Char), c ∉ l →
      findSeq (c :: tl) (l ++ (c :: tl) ++ rest) = some (l, rest) := by
  intro l
  induction l with
  | nil =>
    intro rest _
    rw [List.nil_append, List.cons_append, findSeq]
    rw [if_pos (List.isPrefixOf_iff_prefix.mpr (by
      rw [← List.cons_append]
      exact List.prefix_append (c :: tl) rest))]
    rw [← List.cons_append, List.drop_left]
  | cons a l' ih =>
    intro rest hnotin
    have ha : a ≠ c := fun he => hnotin (he ▸ List.mem_cons_self a l')
    have hl' : c ∉ l' := fun hm => hnotin (List.mem_cons_of_mem a hm)
    rw [List.cons_append, List.cons_append, findSeq]
    rw [if_neg (fun hful => ha (List.cons_prefix_cons.mp
      (List.isPrefixOf_iff_prefix.mp hful)).1.symm)]
    rw [ih rest hl']
    rfl

/-- A needle starting with `c` does not occur in a `c`-free text. -/
theorem findSeq_none_of_notin (c : Char) (tl : List Char) :
    ∀ p : List Char, c ∉ p → findSeq (c :: tl) p = none := by
  intro p
  induction p with
  | nil => intro _; rfl
  | cons a p' ih =>
    intro hnotin
    have ha : a ≠ c := fun he => hnotin (he ▸ List.mem_cons_self a p')
    rw [findSeq]
    rw [if_neg (fun hful => ha (List.cons_prefix_cons.mp
      (List.isPrefixOf_iff_prefix.mp hful)).1.symm)]
    rw [ih (fun hm => hnotin (List.mem_cons_of_mem a hm))]
    rfl

/-- Splitting `l ++ sep ++ p` at `sep` gives exactly `[l, p]` when neither
part contains the first character of `sep`. -/
theorem splitOnSeqAux_two (c : Char) (tl l p : List Char) (fuel : Nat)
    (hl : c ∉ l) (hp : c ∉ p) :
    splitOnSeqAux (c :: tl) (fuel + 2) (l ++ (c :: tl) ++ p) = [l, p] := by
  have h1 : splitOnSeqAux (c :: tl) (fuel + 2) (l ++ (c :: tl) ++ p)
      = match findSeq (c :: tl) (l ++ (c :: tl) ++ p) with
        | none => [l ++ (c :: tl) ++ p]
        | some (pre, post) => pre :: splitOnSeqAux (c :: tl) (fuel + 1) post := rfl
  rw [h1, findSeq_block c tl l p hl]
  show l :: splitOnSeqAux (c :: tl) (fuel + 1) p = [l, p]
  have h2 : splitOnSeqAux (c :: tl) (fuel + 1) p
      = match findSeq (c :: tl) p with
        | none => [p]
        | some (pre, post) => pre :: splitOnSeqAux (c :: tl) fuel post := rfl
  rw [h2, findSeq_none_of_notin c tl p hp]

/-- `splitOnSeq` version of `splitOnSeqAux_two`. -/
theorem splitOnSeq_two (c : Char) (tl l p : List Char) (hl : c ∉ l) (hp : c ∉ p) :
    splitOnSeq (c :: tl) (l ++ (c :: tl) ++ p) = [l, p] := by
  rw [splitOnSeq]
  have hlen : (l ++ (c :: tl) ++ p).length + 1
      = (l.length + tl.length + p.length) + 2 := by
    simp [List.length_append]
    omega
  rw [hlen]
  exact splitOnSeqAux_two c tl l p _ hl hp

theorem splitOnChar_ne_nil (sep : Char) : ∀ l : List Char, splitOnChar sep l ≠ [] := by
  intro l
  cases l with
  | nil => intro h; cases h
  | cons c rest =>
    rw [splitOnChar]
    by_cases h : c = sep
    · rw [if_pos h]
      intro hc
      cases hc
    · rw [if_neg h]
      cases hp : splitOnChar sep rest with
      | nil => intro hc; cases hc
      | cons p ps => intro hc; cases hc

/-- `joinWithChar` undoes `splitOnChar`. -/
theorem joinWithChar_splitOnChar (sep : Char) :
    ∀ l : List Char, joinWithChar sep (splitOnChar sep l) = l := by
  intro l
  induction l with
  | nil => rfl
  | cons c rest ih =>
    rw [splitOnChar]
    by_cases h : c = sep
    · rw [if_pos h]
      cases hp : splitOnChar sep rest with
      | nil => exact absurd hp (splitOnChar_ne_nil sep rest)
      | cons p ps =>
        rw [hp] at ih
        show joinWithChar sep ([] :: p :: ps) = c :: rest
        rw [joinWithChar, List.nil_append, ih, h]
    · rw [if_neg h]
      cases hp : splitOnChar sep rest with
      | nil => exact absurd hp (splitOnChar_ne_nil sep rest)
      | cons p ps =>
        rw [hp] at ih
        cases ps with
        | nil =>
          show joinWithChar sep [c :: p] = c :: rest
          rw [joinWithChar]
          rw [joinWithChar] at ih
          rw [ih]
        | cons q qs =>
          show joinWithChar sep ((c :: p) :: q :: qs) = c :: rest
          rw [joinWithChar] at ih ⊢
          rw [List.cons_append, ih]

/-- Structure of a label accepted by `is_valid_label`: four digits, a dash,
two digits. -/
theorem valid_label_decomp (l : List Char) (h : is_valid_label l = true) :
    ∃ y m1 m2, l = y ++ '-' :: [m1, m2] ∧ y.length = 4 ∧
      (∀ ch ∈ y, ch.isDigit = true) ∧ m1.isDigit = true ∧ m2.isDigit = true := by
  rw [is_valid_label] at h
  cases hsp : splitOnChar '-' l with
  | nil => rw [hsp] at h; cases h
  | cons year parts =>
    cases parts with
    | nil => rw [hsp] at h; cases h
    | cons month more =>
      cases more with
      | cons x xs => rw [hsp] at h; cases h
      | nil =>
        rw [hsp] at h
        simp only [Bool.and_eq_true, beq_iff_eq, List.all_eq_true] at h
        obtain ⟨⟨⟨hy4, hm2⟩, hyd⟩, hmd⟩ := h
        have hjoin := joinWithChar_splitOnChar '-' l
        rw [hsp] at hjoin
        rw [joinWithChar] at hjoin
        cases month with
        | nil => rw [List.length_nil] at hm2; cases hm2
        | cons m1 mrest =>
          cases mrest with
          | nil => rw [List.length_cons, List.length_nil] at hm2; cases hm2
          | cons m2 mrest2 =>
            cases mrest2 with
            | cons z zs =>
              rw [List.length_cons, List.length_cons, List.length_cons] at hm2
              cases hm2
            | nil =>
              refine ⟨year, m1, m2, ?_, hy4, ?_, ?_, ?_⟩
              · rw [← hjoin]
                rfl
              · intro ch hch
                exact hyd ch hch
              · exact hmd m1 (List.mem_cons_self m1 [m2])
              · exact hmd m2 (List.mem_cons_of_mem m1 (List.mem_cons_self m2 []))

/-- Distinct characters from digit evidence: a digit is never one of the
grammar's punctuation or letter characters. -/
theorem isDigit_ne (c d : Char) (hc : c.isDigit = true) (hd : d.isDigit = false) :
    c ≠ d := by
  intro he
  rw [he, hd] at hc
  cases hc

/-- Every character of a valid label is a digit or the dash; in particular the
dot never occurs in a valid label. -/
theorem valid_label_no_dot (l : List Char) (h : is_valid_label l = true) : '.' ∉ l := by
  obtain ⟨y, m1, m2, hdec, _, hyd, hm1, hm2⟩ := valid_label_decomp l h
  rw [hdec]
  intro hmem
  rw [List.mem_append] at hmem
  rcases hmem with hmem | hmem
  · exact isDigit_ne '.' '.' (hyd '.' hmem) rfl rfl
  · rw [List.mem_cons] at hmem
    rcases hmem with hmem | hmem
    · cases hmem
    · rw [List.mem_cons] at hmem
      rcases hmem with hmem | hmem
      · exact isDigit_ne '.' '.' (hmem ▸ hm1) rfl rfl
      · rw [List.mem_singleton] at hmem
        exact isDigit_ne '.' '.' (hmem ▸ hm2) rfl rfl

/-- The last character of a valid label is its second month digit. -/
theorem valid_label_getLast? (l : List Char) (h : is_valid_label l = true) :
    ∃ m2, l.getLast? = some m2 ∧ m2.isDigit = true := by
  obtain ⟨y, m1, m2, hdec, _, _, _, hm2⟩ := valid_label_decomp l h
  refine ⟨m2, ?_, hm2⟩
  rw [hdec, List.getLast?_append_of_ne_nil y (by intro hc; cases hc)]
  rfl

/-- C3: building an artifact filename from a valid label (and optionally a
valid parent label) and parsing it back returns exactly the original label,
the kind (anchor iff the parent is absent) and the original parent. -/
theorem c3_build_parse_roundtrip :
    ∀ (l : List Char) (p : Option (List Char)), is_valid_label l = true →
      (∀ pl, p = some pl → is_valid_label pl = true) →
      parse_artifact_filename (build_artifact_name l p)
        = some ⟨l,
            (match p with
             | some _ => ArtifactType.incremental
             | none => ArtifactType.anchor),
            p, build_artifact_name l p⟩ := by
  intro l p hl hp
  cases p with
  | none =>
    rw [build_artifact_name, parse_artifact_filename]
    have h1 : stripPrefixL devTag (devTag ++ l ++ fullSuffix) = some (l ++ fullSuffix) := by
      rw [List.append_assoc]
      exact stripPrefixL_append devTag (l ++ fullSuffix)
    have hA : (stripPrefixL devTag (devTag ++ l ++ fullSuffix)).bind
        (stripSuffixL fullSuffix) = some l := by
      rw [h1]
      exact stripSuffixL_append l fullSuffix
    rw [hA]
  | some pl =>
    have hpl := hp pl rfl
    have hldot := valid_label_no_dot l hl
    have hpdot := valid_label_no_dot pl hpl
    have hassoc : devTag ++ l ++ incrSep ++ pl ++ sendSuffix
        = devTag ++ (l ++ incrSep ++ pl ++ sendSuffix) := by
      simp [List.append_assoc]
    have h1 : stripPrefixL devTag (devTag ++ l ++ incrSep ++ pl ++ sendSuffix)
        = some (l ++ incrSep ++ pl ++ sendSuffix) := by
      rw [hassoc]
      exact stripPrefixL_append devTag _
    have h2 : stripSuffixL fullSuffix (l ++ incrSep ++ pl ++ sendSuffix) = none := by
      cases hss : stripSuffixL fullSuffix (l ++ incrSep ++ pl ++ sendSuffix) with
      | none => rfl
      | some t =>
        exfalso
        have heq := (stripSuffixL_eq_some_iff _ _ _).mp hss
        have hfs : fullSuffix = ['.', 'f', 'u', 'l', 'l'] ++ sendSuffix := rfl
        have heq2 : (l ++ incrSep ++ pl) ++ sendSuffix
            = (t ++ ['.', 'f', 'u', 'l', 'l']) ++ sendSuffix := by
          rw [hfs] at heq
          simpa [List.append_assoc] using heq
        have heq3 : l ++ incrSep ++ pl = t ++ ['.', 'f', 'u', 'l', 'l'] :=
          List.append_cancel_right heq2
        obtain ⟨m2, hm2last, hm2d⟩ := valid_label_getLast? pl hpl
        have hplne : pl ≠ [] := by
          intro hc
          rw [hc] at hm2last
          cases hm2last
        have hleft : (l ++ incrSep ++ pl).getLast? = some m2 := by
          rw [List.getLast?_append_of_ne_nil (l ++ incrSep) hplne]
          exact hm2last
        have hright : (t ++ ['.', 'f', 'u', 'l', 'l']).getLast? = some 'l' := by
          rw [List.getLast?_append_of_ne_nil t (by intro hc; cases hc)]
          rfl
        rw [heq3, hright] at hleft
        have : m2 = 'l' := by
          injection hleft with h
          exact h.symm
        exact isDigit_ne m2 'l' hm2d rfl this
    have hA : (stripPrefixL devTag (devTag ++ l ++ incrSep ++ pl ++ sendSuffix)).bind
        (stripSuffixL fullSuffix) = none := by
      rw [h1]
      exact h2
    have h3 : stripSuffixL sendSuffix (l ++ incrSep ++ pl ++ sendSuffix)
        = some (l ++ incrSep ++ pl) :=
      stripSuffixL_append (l ++ incrSep ++ pl) sendSuffix
    have hsep : incrSep = '.' :: ['i', 'n', 'c', 'r', '.', 'f', 'r', 'o', 'm', '_'] := rfl
    have h4 : splitOnSeq incrSep (l ++ incrSep ++ pl) = [l, pl] := by
      rw [hsep]
      exact splitOnSeq_two '.' ['i', 'n', 'c', 'r', '.', 'f', 'r', 'o', 'm', '_']
        l pl hldot hpdot
    rw [build_artifact_name, parse_artifact_filename]
    simp only [hA, h1, h3, h4]
    rw [show ((some (l ++ incrSep ++ pl ++ sendSuffix)).bind fun a => stripSuffixL fullSuffix a)
        = (none : Option (List Char)) from h2]

/-- Witness for C3: the round-trip applied to the concrete incremental name
`dev@2024-02.incr.from_2024-01.send.zst.age`. -/
theorem c3_witness :
    parse_artifact_filename (build_artifact_name "2024-02".data (some "2024-01".data))
      = some ⟨"2024-02".data, ArtifactType.incremental, some "2024-01".data,
          build_artifact_name "2024-02".data (some "2024-01".data)⟩ :=
  c3_build_parse_roundtrip "2024-02".data (some "2024-01".data) (by decide)
    (fun pl h => by
      injection h with h
      rw [← h]
      decide)

/-- C4 (amended): `parse_artifact_filename` returns None exactly for the
strings that neither have the shape `dev@<mid>.full.send.zst.age` (for ANY
middle segment — the code does not validate that the label is
4-digits-dash-2-digits) nor the shape `dev@<mid>.send.zst.age` with `<mid>`
splitting at `.incr.from_` into exactly two parts. Being a total function of
the input string, it never panics. In particular a name carrying two
`.incr.from_` separators is rejected. -/
theorem c4_parse_filename_rejects :
    (∀ s : List Char, parse_artifact_filename s = none ↔
      ((∀ mid, s ≠ devTag ++ (mid ++ fullSuffix)) ∧
       (∀ mid, s = devTag ++ (mid ++ sendSuffix) →
         ∀ a b, splitOnSeq incrSep mid ≠ [a, b]))) ∧
    parse_artifact_filename
      "dev@2024-03.incr.from_2024-02.incr.from_2024-01.send.zst.age".data = none := by
  refine ⟨?_, by decide⟩
  intro s
  rw [parse_artifact_filename]
  cases h1 : stripPrefixL devTag s with
  | none =>
    have hno : ∀ t, s ≠ devTag ++ t := by
      intro t hc
      rw [(stripPrefixL_eq_some_iff devTag s t).mpr hc] at h1
      cases h1
    constructor
    · intro _
      exact ⟨fun mid hc => hno (mid ++ fullSuffix) hc,
        fun mid hc => absurd hc (hno (mid ++ sendSuffix))⟩
    · intro _
      rfl
  | some t =>
    have hst : s = devTag ++ t := (stripPrefixL_eq_some_iff devTag s t).mp h1
    cases h2 : stripSuffixL fullSuffix t with
    | some lab =>
      have ht : t = lab ++ fullSuffix := (stripSuffixL_eq_some_iff _ _ _).mp h2
      constructor
      · intro hc
        rw [show (some t).bind (stripSuffixL fullSuffix) = some lab from h2] at hc
        cases hc
      · intro hrhs
        exact absurd (by rw [hst, ht]) (hrhs.1 lab)
    | none =>
      have hbindnone : (some t).bind (stripSuffixL fullSuffix) = none := h2
      cases h3 : stripSuffixL sendSuffix t with
      | none =>
        constructor
        · intro _
          refine ⟨?_, ?_⟩
          · intro mid hc
            have ht : t = mid ++ fullSuffix :=
              List.append_cancel_left (by rw [← hst, hc])
            rw [(stripSuffixL_eq_some_iff _ _ _).mpr ht] at h2
            cases h2
          · intro mid hc a b
            have ht : t = mid ++ sendSuffix :=
              List.append_cancel_left (by rw [← hst, hc])
            rw [(stripSuffixL_eq_some_iff _ _ _).mpr ht] at h3
            cases h3
        · intro _
          rw [hbindnone]
          show (match stripSuffixL sendSuffix t with
            | none => none
            | some t2 =>
              match splitOnSeq incrSep t2 with
              | [label, parent] =>
                some (⟨label, ArtifactType.incremental, some parent, s⟩ : ArtifactInfo)
              | _ => none) = none
          rw [h3]
      | some mid =>
        have htm : t = mid ++ sendSuffix := (stripSuffixL_eq_some_iff _ _ _).mp h3
        have hmid : ∀ mid', s = devTag ++ (mid' ++ sendSuffix) → mid' = mid := by
          intro mid' hc
          have ht : t = mid' ++ sendSuffix :=
            List.append_cancel_left (by rw [← hst, hc])
          exact List.append_cancel_right (by rw [← ht, htm])
        have hreduce : ∀ o : Option ArtifactInfo,
            ((match (some t).bind (stripSuffixL fullSuffix) with
              | some label => some (⟨label, ArtifactType.anchor, none, s⟩ : ArtifactInfo)
              | none =>
                match some t with
                | none => none
                | some t1 =>
                  match stripSuffixL sendSuffix t1 with
                  | none => none
                  | some t2 =>
                    match splitOnSeq incrSep t2 with
                    | [label, parent] =>
                      some (⟨label, ArtifactType.incremental, some parent, s⟩ : ArtifactInfo)
                    | _ => none) = o)
            ↔ ((match splitOnSeq incrSep mid with
                | [label, parent] =>
                  some (⟨label, ArtifactType.incremental, some parent, s⟩ : ArtifactInfo)
                | _ => none) = o) := by
          intro o
          rw [hbindnone]
          show ((match stripSuffixL sendSuffix t with
            | none => none
            | some t2 =>
              match splitOnSeq incrSep t2 with
              | [label, parent] =>
                some (⟨label, ArtifactType.incremental, some parent, s⟩ : ArtifactInfo)
              | _ => none) = o) ↔ _
          rw [h3]
        cases h4 : splitOnSeq incrSep mid with
        | nil =>
          constructor
          · intro _
            refine ⟨?_, ?_⟩
            · intro mid' hc
              have ht : t = mid' ++ fullSuffix :=
                List.append_cancel_left (by rw [← hst, hc])
              rw [(stripSuffixL_eq_some_iff _ _ _).mpr ht] at h2
              cases h2
            · intro mid' hc a b
              rw [hmid mid' hc, h4]
              intro hx
              cases hx
          · intro _
            rw [hreduce none, h4]
        | cons a rest =>
          cases rest with
          | nil =>
            constructor
            · intro _
              refine ⟨?_, ?_⟩
              · intro mid' hc
                have ht : t = mid' ++ fullSuffix :=
                  List.append_cancel_left (by rw [← hst, hc])
                rw [(stripSuffixL_eq_some_iff _ _ _).mpr ht] at h2
                cases h2
              · intro mid' hc a' b'
                rw [hmid mid' hc, h4]
                intro hx
                cases hx
            · intro _
              rw [hreduce none, h4]
          | cons b rest2 =>
            cases rest2 with
            | nil =>
              constructor
              · intro hc
                rw [hreduce none, h4] at hc
                cases hc
              · intro hrhs
                exact absurd h4 (hrhs.2 mid (by rw [hst, htm]) a b)
            | cons x xs =>
              constructor
              · intro _
                refine ⟨?_, ?_⟩
                · intro mid' hc
                  have ht : t = mid' ++ fullSuffix :=
                    List.append_cancel_left (by rw [← hst, hc])
                  rw [(stripSuffixL_eq_some_iff _ _ _).mpr ht] at h2
                  cases h2
                · intro mid' hc a' b'
                  rw [hmid mid' hc, h4]
                  intro hx
                  cases hx
              · intro _
                rw [hreduce none, h4]

/-- Counterexample for C4 as stated: `dev@foo.full.send.zst.age` does not
match the claimed grammar — its label `foo` is not 4 digits, a dash and 2
digits — yet `parse_artifact_filename` accepts it as an anchor, because the
parser never validates the label shape. -/
theorem c4_counterexample :
    parse_artifact_filename "dev@foo.full.send.zst.age".data
      = some ⟨"foo".data, ArtifactType.anchor, none, "dev@foo.full.send.zst.age".data⟩ ∧
    is_valid_label "foo".data = false := by
  exact ⟨by decide, by decide⟩

/-- Witness for C4: the characterisation instantiated on a concrete string
matching neither shape. -/
theorem c4_witness :
    parse_artifact_filename "dev@x.unknown".data = none ↔
      ((∀ mid, "dev@x.unknown".data ≠ devTag ++ (mid ++ fullSuffix)) ∧
       (∀ mid, "dev@x.unknown".data = devTag ++ (mid ++ sendSuffix) →
         ∀ a b, splitOnSeq incrSep mid ≠ [a, b])) :=
  c4_parse_filename_rejects.1 "dev@x.unknown".data

end BackupBuild
